import Mathlib

/-!
Shallow embedding of the control-systems engine of Hixos/control-systems-rs
(crate control_system_lib: controlsystem.rs, io.rs, controlblock.rs).

Modelling conventions:
* Rust HashMaps are modelled as insertion-ordered association lists with
  overwriting insert (upsert); HashSets as lists with erase.
* Rust TypeId/type_name of a signal's payload type are modelled by a single
  String (the type's name); TypeId comparison becomes String equality.
* The shared Rc<RefCell<...>> allocation backing an AnySignal is modelled by
  a numeric cell id, allocated from a counter when a block's output ports are
  created; cloning an AnySignal keeps the cell id.
* f64 time values (t, dt) are modelled as rationals; no claim depends on
  float rounding.
* A block's step function is modelled as a function from the StepInfo tick
  data to a result; the number of times the runtime invoked a block's step
  is recorded in a counter so that invocation claims are observable.
-/

namespace ControlSystemRs

/-- Mirrors enum ControlSystemError of control_system_lib/src/lib.rs. -/
inductive ControlSystemError where
  | DuplicateBlockName (name : String)
  | UnknownSignal (port signal blockname : String)
  | UnknownPort (port blockname : String)
  | CycleDetected (name : String)
  | MultipleProducers (port signal blockname : String)
  | UnconnectedPorts (ports : List String) (blockname : String)
  | TypeError (signal typename signal_typename : String)
  deriving Repr, DecidableEq

/-- Mirrors enum StepResult of controlblock.rs. -/
inductive StepResult where
  | Continue
  | Stop
  deriving Repr, DecidableEq

/-- Mirrors struct StepInfo of controlblock.rs (k: usize, dt: f64, t: f64). -/
structure StepInfo where
  k : Nat
  dt : ℚ
  t : ℚ
  deriving Repr, DecidableEq

/-- StepInfo::new of controlblock.rs: starts at k = 1, t = 0. -/
def StepInfo.new (dt : ℚ) : StepInfo :=
  { k := 1, dt := dt, t := 0 }

/-- Mirrors struct AnySignal of io.rs: the shared value cell (by identity),
its payload type and its optional name. -/
structure AnySignal where
  cellId : Nat
  ty : String
  name : Option String
  deriving Repr, DecidableEq

/-- AnySignal::try_get::<T> of io.rs, with T given by its type name:
the downcast succeeds when T equals the cell's payload type, otherwise a
TypeError naming the signal and both type names is returned. -/
def AnySignal.try_get (s : AnySignal) (tyname : String) : Except ControlSystemError Unit :=
  if s.ty = tyname then .ok ()
  else .error (.TypeError (s.name.getD "") tyname s.ty)

/-- Input::connect of io.rs: binds the input slot after checking type
identity, returning TypeError on mismatch. -/
def Input.connect (_slot : Option AnySignal) (tyname : String) (signal : AnySignal) :
    Except ControlSystemError (Option AnySignal) :=
  if signal.ty = tyname then .ok (some signal)
  else .error (.TypeError (signal.name.getD "") tyname signal.ty)

/-! Association-list counterparts of the HashMap operations used by the
builder: lookup, and overwriting insert that keeps insertion order. -/

def alookup {α : Type} (m : List (String × α)) (k : String) : Option α :=
  (m.find? (fun p => p.1 == k)).map (·.2)

def upsert {α : Type} (m : List (String × α)) (k : String) (v : α) :
    List (String × α) :=
  if m.any (fun p => p.1 == k) then
    m.map (fun p => if p.1 == k then (k, v) else p)
  else
    m ++ [(k, v)]

/-- The static interface of a block: its name, declared input and output
ports (port name with payload-type name), its declared delay, and its step
behaviour (result of Block::step as a function of the tick data). -/
structure BlockSpec where
  name : String
  inputs : List (String × String)
  outputs : List (String × String)
  delay : Nat
  behavior : StepInfo → Except ControlSystemError StepResult

/-- Mirrors struct BlockData of controlsystem.rs, together with the
block's own port storage (BlockIO::input_signals / output_signals slots).
registered_inputs maps signal name to port name (as in the source);
registered_outputs maps port name to signal name. -/
structure BlockData where
  spec : BlockSpec
  input_signals : List (String × Option AnySignal)
  output_signals : List (String × AnySignal)
  registered_inputs : List (String × String)
  registered_outputs : List (String × String)

/-- Mirrors struct ControlSystemBuilder of controlsystem.rs, plus the
allocation counter for fresh signal cells (in Rust the cells are allocated
by Output::default when the block value is constructed). -/
structure ControlSystemBuilder where
  signals : List (String × AnySignal)
  blocks : List (String × BlockData)
  next_cell : Nat

def ControlSystemBuilder.empty : ControlSystemBuilder :=
  { signals := [], blocks := [], next_cell := 0 }

/-- A freshly constructed block value: every input slot unbound, every
output port owning a fresh typed cell (Output::default). -/
def mk_block_data (spec : BlockSpec) (base : Nat) : BlockData :=
  { spec := spec
    input_signals := spec.inputs.map (fun p => (p.1, none))
    output_signals := spec.outputs.enum.map
      (fun q => (q.2.1, { cellId := base + q.1, ty := q.2.2, name := none }))
    registered_inputs := []
    registered_outputs := [] }

/-- Loop body of ControlSystemBuilder::connect_inputs: remaining is the set
of not-yet-wired declared input ports; each listed connection must name a
port still in the set, and is recorded as signal -> port. -/
def connect_inputs_go (bd : BlockData) (remaining : List String) :
    List (String × String) → Except ControlSystemError BlockData
  | [] =>
    if remaining.isEmpty then .ok bd
    else .error (.UnconnectedPorts remaining bd.spec.name)
  | (port, signal) :: rest =>
    if remaining.contains port then
      connect_inputs_go
        { bd with registered_inputs := upsert bd.registered_inputs signal port }
        (remaining.erase port) rest
    else
      .error (.UnknownPort port bd.spec.name)

/-- ControlSystemBuilder::connect_inputs. -/
def connect_inputs (bd : BlockData) (conns : List (String × String)) :
    Except ControlSystemError BlockData :=
  connect_inputs_go bd (bd.input_signals.map (·.1)) conns

/-- The state threaded through the connect_outputs loop: the builder's
signal map (mutated in place in the source, also on failure), the block
data being filled in, and the block's not-yet-wired output ports. -/
structure OutAcc where
  signals : List (String × AnySignal)
  bd : BlockData
  remaining : List (String × AnySignal)

/-- Loop body of ControlSystemBuilder::connect_outputs: a connection whose
signal name already exists is MultipleProducers; an unknown port is
UnknownPort; otherwise the named cell (with its name set) is inserted into
the builder's signal map and the wiring is recorded. On error the partially
updated signal map is kept, as in the source (&mut self). -/
def connect_outputs_go (acc : OutAcc) :
    List (String × String) → OutAcc × Option ControlSystemError
  | [] => (acc, none)
  | (port, signal_name) :: rest =>
    if (alookup acc.signals signal_name).isSome then
      (acc, some (.MultipleProducers port signal_name acc.bd.spec.name))
    else
      match alookup acc.remaining port with
      | none => (acc, some (.UnknownPort port acc.bd.spec.name))
      | some sig =>
        let sig' : AnySignal := { sig with name := some signal_name }
        connect_outputs_go
          { signals := upsert acc.signals signal_name sig'
            bd := { acc.bd with
              registered_outputs := upsert acc.bd.registered_outputs port signal_name
              output_signals := upsert acc.bd.output_signals port sig' }
            remaining := acc.remaining.eraseP (fun p => p.1 == port) }
          rest

/-- ControlSystemBuilder::connect_outputs: runs the loop, then requires
that no declared output port is left unwired. -/
def connect_outputs (signals : List (String × AnySignal)) (bd : BlockData)
    (conns : List (String × String)) :
    List (String × AnySignal) × Except ControlSystemError BlockData :=
  match connect_outputs_go ⟨signals, bd, bd.output_signals⟩ conns with
  | (acc, some e) => (acc.signals, .error e)
  | (acc, none) =>
    if acc.remaining.isEmpty then (acc.signals, .ok acc.bd)
    else (acc.signals, .error (.UnconnectedPorts (acc.remaining.map (·.1)) acc.bd.spec.name))

/-- ControlSystemBuilder::add_block: rejects duplicate names, wires inputs
then outputs, and registers the block only on full success. The signal-map
mutations already performed by connect_outputs survive a failure. -/
def add_block (b : ControlSystemBuilder) (spec : BlockSpec)
    (input_connections output_connections : List (String × String)) :
    ControlSystemBuilder × Except ControlSystemError Unit :=
  if (alookup b.blocks spec.name).isSome then
    ({ b with next_cell := b.next_cell + spec.outputs.length },
      .error (.DuplicateBlockName spec.name))
  else
    match connect_inputs (mk_block_data spec b.next_cell) input_connections with
    | .error e =>
      ({ b with next_cell := b.next_cell + spec.outputs.length }, .error e)
    | .ok bd1 =>
      match connect_outputs b.signals bd1 output_connections with
      | (signals', .error e) =>
        ({ b with signals := signals'
                  next_cell := b.next_cell + spec.outputs.length }, .error e)
      | (signals', .ok bd2) =>
        ({ b with signals := signals'
                  blocks := b.blocks ++ [(spec.name, bd2)]
                  next_cell := b.next_cell + spec.outputs.length }, .ok ())

/-- Mirrors struct ControlSystemParameters of controlsystem.rs. -/
structure ControlSystemParameters where
  dt : ℚ
  max_iter : Nat
  deriving Repr, DecidableEq

/-- A block held by the built runtime: its data plus an instrumentation
counter recording how many times the runtime has invoked its step. -/
structure RBlock where
  data : BlockData
  calls : Nat

/-- Mirrors struct ControlSystem of controlsystem.rs (the built runtime).
The field named step in the source is step_info here, to leave the name
step free for the method. -/
structure ControlSystem where
  name : String
  signals : List (String × AnySignal)
  blocks : List RBlock
  params : ControlSystemParameters
  step_info : StepInfo

/-- The loop of ControlSystem::step:
for b in blocks { stop = stop || b.step(self.step)? == Stop }.
Rust's lazy || skips the call to b.step once stop is true; an error from a
step call propagates through ? at once, leaving later blocks untouched.
Returns the updated block list and either the propagated error or the
final stop flag. -/
def step_blocks (info : StepInfo) :
    List RBlock → Bool → List RBlock × Except ControlSystemError Bool
  | [], stop => ([], .ok stop)
  | b :: rest, stop =>
    if stop then
      -- short-circuit: b.step is not invoked, stop stays true
      match step_blocks info rest true with
      | (rest', r) => (b :: rest', r)
    else
      match b.data.spec.behavior info with
      | .error e => ({ b with calls := b.calls + 1 } :: rest, .error e)
      | .ok r =>
        match step_blocks info rest (r == .Stop) with
        | (rest', res) => ({ b with calls := b.calls + 1 } :: rest', res)

/-- ControlSystem::step: run every block (subject to the loop above),
advance k and t, then report Stop when a block asked for it or when
max_iter > 0 and the incremented k exceeds it. On a block error, k and t
are not advanced. -/
def ControlSystem.step (cs : ControlSystem) :
    ControlSystem × Except ControlSystemError StepResult :=
  match step_blocks cs.step_info cs.blocks false with
  | (blocks', .error e) => ({ cs with blocks := blocks' }, .error e)
  | (blocks', .ok stop) =>
    let si : StepInfo :=
      { cs.step_info with
        k := cs.step_info.k + 1
        t := cs.step_info.t + cs.step_info.dt }
    ({ cs with blocks := blocks', step_info := si },
     .ok (if stop || (decide (0 < cs.params.max_iter) &&
                      decide (cs.params.max_iter < si.k)) then .Stop else .Continue))

/-- Iterated ControlSystem::step, discarding the results. -/
def stepN (cs : ControlSystem) : Nat → ControlSystem
  | 0 => cs
  | n + 1 => (stepN cs n).step.1

/-- The result of the m-th call (1-based) to ControlSystem::step. -/
def step_call_result (cs : ControlSystem) (m : Nat) :
    Except ControlSystemError StepResult :=
  (stepN cs (m - 1)).step.2

/-! The dependency graph of ControlSystemBuilder::build_graph: nodes are
the block names; an edge (producer, consumer, signal) exists when the
producer registered an output to the signal, the consumer registered an
input from it, and the consumer's delay is 0 or the cyclic_edges flag
asked for the full diagnostic graph. -/

abbrev GEdge := String × String × String

def build_graph (blocks : List (String × BlockData)) (cyclic_edges : Bool) :
    List GEdge :=
  blocks.flatMap (fun pb =>
    pb.2.registered_outputs.flatMap (fun po =>
      blocks.filterMap (fun cb =>
        if (alookup cb.2.registered_inputs po.2).isSome &&
            (cb.2.spec.delay == 0 || cyclic_edges) then
          some (pb.1, cb.1, po.2)
        else none)))

/-! Topological sort, modelling the contract of petgraph::algo::toposort
(third-party code, not part of this repository): on an acyclic graph it
returns a topological order of the nodes; otherwise it reports a node that
lies on a cycle. Implemented as Kahn's algorithm; when stuck, the reported
node is found by walking predecessors inside the stuck set until the walk
must have entered a cycle. -/

/-- Whether v has an incoming edge from the set S. -/
def has_incoming (E : List GEdge) (S : List String) (v : String) : Bool :=
  E.any (fun e => e.2.1 == v && S.contains e.1)

/-- Some predecessor of v inside S (v itself when there is none). -/
def graph_pred (E : List GEdge) (S : List String) (v : String) : String :=
  match S.find? (fun u => E.any (fun e => e.1 == u && e.2.1 == v)) with
  | some u => u
  | none => v

/-- n-fold predecessor walk. -/
def pred_iter (E : List GEdge) (S : List String) : Nat → String → String
  | 0, v => v
  | n + 1, v => pred_iter E S n (graph_pred E S v)

/-- The node reported on a cycle: walk predecessors |S| times from the
head of the stuck set; by then the walk is inside a cycle. -/
def cycle_node (E : List GEdge) (S : List String) : String :=
  pred_iter E S S.length (S.headD "")

/-- Kahn's algorithm, with fuel (initially the number of nodes, enough to
finish: each picked node shrinks the set by one). -/
def toposort_go (E : List GEdge) : Nat → List String → Except String (List String)
  | 0, S => if S.isEmpty then .ok [] else .error (cycle_node E S)
  | fuel + 1, S =>
    match S.find? (fun v => !has_incoming E S v) with
    | some v =>
      match toposort_go E fuel (S.erase v) with
      | .ok L => .ok (v :: L)
      | .error w => .error w
    | none => if S.isEmpty then .ok [] else .error (cycle_node E S)

def toposort (E : List GEdge) (S : List String) :
    Except String (List String) :=
  toposort_go E S.length S

/-- The input-resolution pass of ControlSystemBuilder::build, for one
block: for every recorded wiring signal -> port, resolve the signal by
name (UnknownSignal when absent) and write the cell into the port slot.
The write is a plain assignment through the &mut slot
(**input_signals.get_mut(input).unwrap() = Some(signal.clone())):
no type check is performed here. -/
def bind_inputs_go (signals : List (String × AnySignal)) (blockname : String)
    (bd : BlockData) :
    List (String × String) → Except ControlSystemError BlockData
  | [] => .ok bd
  | (signal, input) :: rest =>
    match alookup signals signal with
    | none => .error (.UnknownSignal input signal blockname)
    | some sig =>
      bind_inputs_go signals blockname
        { bd with input_signals := upsert bd.input_signals input (some sig) } rest

def bind_inputs (signals : List (String × AnySignal)) (blockname : String)
    (bd : BlockData) : Except ControlSystemError BlockData :=
  bind_inputs_go signals blockname bd bd.registered_inputs

/-- The input-resolution pass over all registered blocks. -/
def bind_all (signals : List (String × AnySignal)) :
    List (String × BlockData) →
    Except ControlSystemError (List (String × BlockData))
  | [] => .ok []
  | (n, bd) :: rest =>
    match bind_inputs signals n bd with
    | .error e => .error e
    | .ok bd' =>
      match bind_all signals rest with
      | .error e => .error e
      | .ok rest' => .ok ((n, bd') :: rest')

/-- ControlSystemBuilder::build: resolve every recorded input wiring, then
topologically sort the delay-filtered dependency graph; a detected cycle
is reported as CycleDetected with the node returned by the sort; on
success the runtime holds the blocks in sorted order and a fresh StepInfo.
(The full diagnostic graph built with cyclic_edges = true is only
printed in the source and does not influence the result.) -/
def ControlSystemBuilder.build (b : ControlSystemBuilder) (name : String)
    (params : ControlSystemParameters) :
    Except ControlSystemError ControlSystem :=
  match bind_all b.signals b.blocks with
  | .error e => .error e
  | .ok blocks' =>
    match toposort (build_graph blocks' false) (blocks'.map (·.1)) with
    | .ok sorted =>
      .ok { name := name
            signals := b.signals
            blocks := sorted.filterMap
              (fun n => (alookup blocks' n).map (fun bd => ⟨bd, 0⟩))
            params := params
            step_info := StepInfo.new params.dt }
    | .error w => .error (.CycleDetected w)

/-! Observation helpers used by the claim statements. -/

/-- The edge relation of a dependency-graph edge list (labels forgotten). -/
def is_edge (E : List GEdge) (a b : String) : Prop :=
  ∃ l, (a, b, l) ∈ E

/-- A directed cycle: the nonempty node list c, walked in order and closed
back to its head, follows edges of E. -/
def is_cycle (E : List GEdge) : List String → Prop
  | [] => False
  | a :: rest => List.Chain (is_edge E) a (rest ++ [a])

/-- Whether every recorded input wiring of every registered block names a
signal present in the builder's signal map (no UnknownSignal at build). -/
def inputs_resolve (b : ControlSystemBuilder) : Bool :=
  b.blocks.all (fun p => p.2.registered_inputs.all
    (fun q => (alookup b.signals q.1).isSome))

/-- The execution order of a built runtime, as block names. -/
def exec_order (cs : ControlSystem) : List String :=
  cs.blocks.map (fun rb => rb.data.spec.name)

/-- The delay registered for a block name in a builder. -/
def delay_of (b : ControlSystemBuilder) (n : String) : Nat :=
  ((alookup b.blocks n).map (fun bd => bd.spec.delay)).getD 0

/-! Concrete fixtures used by the evaluation theorems, counterexamples and
witnesses. -/

def beh_continue : StepInfo → Except ControlSystemError StepResult :=
  fun _ => .ok .Continue

def beh_stop : StepInfo → Except ControlSystemError StepResult :=
  fun _ => .ok .Stop

def beh_err : StepInfo → Except ControlSystemError StepResult :=
  fun _ => .error (.UnknownSignal "p" "s" "b")

/-- A source block: no inputs, one f64 output port y. -/
def blockSrc : BlockSpec :=
  { name := "A", inputs := [], outputs := [("y", "f64")], delay := 0
    behavior := beh_continue }

/-- A sink block with a single i32 input port u. -/
def blockSinkI32 : BlockSpec :=
  { name := "B", inputs := [("u", "i32")], outputs := [], delay := 0
    behavior := beh_continue }

/-- A sink block with two f64 input ports u1, u2. -/
def blockSinkTwo : BlockSpec :=
  { name := "B", inputs := [("u1", "f64"), ("u2", "f64")], outputs := []
    delay := 0, behavior := beh_continue }

/-- A second source block: no inputs, one f64 output port z. -/
def blockSrc2 : BlockSpec :=
  { name := "A2", inputs := [], outputs := [("z", "f64")], delay := 0
    behavior := beh_continue }

/-- A block with two f64 output ports and no inputs. -/
def blockTwoOut : BlockSpec :=
  { name := "T", inputs := [], outputs := [("y1", "f64"), ("y2", "f64")]
    delay := 0, behavior := beh_continue }

/-- A block with two inputs and two outputs, for the total-wiring claim. -/
def blockWide : BlockSpec :=
  { name := "W", inputs := [("u1", "f64"), ("u2", "f64")]
    outputs := [("y1", "f64"), ("y2", "f64")], delay := 0
    behavior := beh_continue }

/-- Builder wiring the f64 producer to signal s and the i32 sink input to
the same signal s: a type mismatch. -/
def builderMismatch : ControlSystemBuilder :=
  (add_block (add_block ControlSystemBuilder.empty blockSrc [] [("y", "s")]).1
    blockSinkI32 [("u", "s")] []).1

/-- Builder wiring both input ports of one block to the one signal s. -/
def builderAlias : ControlSystemBuilder :=
  (add_block (add_block ControlSystemBuilder.empty blockSrc [] [("y", "s")]).1
    blockSinkTwo [("u1", "s"), ("u2", "s")] []).1

def defaultParams : ControlSystemParameters := { dt := 1, max_iter := 0 }

/-- Builder holding the single producer blockSrc with output y on signal s. -/
def builderOneSrc : ControlSystemBuilder :=
  (add_block ControlSystemBuilder.empty blockSrc [] [("y", "s")]).1

/-- The freshly constructed block value of blockSrc2 registered after
builderOneSrc. -/
def bdA2 : BlockData := mk_block_data blockSrc2 builderOneSrc.next_cell

/-- The initial output-wiring state of that registration. -/
def accA2 : OutAcc := ⟨builderOneSrc.signals, bdA2, bdA2.output_signals⟩

/-- Builder left behind by a FAILED add_block of blockTwoOut whose first
output connection (y1, s1) was processed before the bogus port name made
the call error: s1 leaks into the signal map, no block is registered. -/
def builderLeaky : ControlSystemBuilder :=
  (add_block ControlSystemBuilder.empty blockTwoOut []
    [("y1", "s1"), ("bogus", "s2")]).1

/-- The freshly constructed blockTwoOut value (next_cell starts at 0). -/
def bdT : BlockData := mk_block_data blockTwoOut 0

/-- The freshly constructed blockSrc value registered after builderLeaky. -/
def bdA1 : BlockData := mk_block_data blockSrc builderLeaky.next_cell

/-- The initial output-wiring state of that later registration. -/
def accA1 : OutAcc := ⟨builderLeaky.signals, bdA1, bdA1.output_signals⟩

/-- A port-less block with the given name and step behaviour. -/
def simpleRBlock (n : String)
    (beh : StepInfo → Except ControlSystemError StepResult) : RBlock :=
  ⟨mk_block_data { name := n, inputs := [], outputs := [], delay := 0
                   behavior := beh } 0, 0⟩

/-- A zero-delay block C consuming signal sD and producing sC. -/
def blockLoopA : BlockSpec :=
  { name := "C", inputs := [("u", "f64")], outputs := [("y", "f64")]
    delay := 0, behavior := beh_continue }

/-- A delay-1 block D consuming sC and producing sD: legal feedback. -/
def blockLoopB : BlockSpec :=
  { name := "D", inputs := [("u", "f64")], outputs := [("y", "f64")]
    delay := 1, behavior := beh_continue }

/-- Builder with the feedback loop C -> D -> C broken by D's delay. -/
def builderDelayLoop : ControlSystemBuilder :=
  (add_block (add_block ControlSystemBuilder.empty blockLoopA
    [("u", "sD")] [("y", "sC")]).1 blockLoopB [("u", "sC")] [("y", "sD")]).1

/-- The runtime built from builderDelayLoop (build succeeds; the junk
fallback is never taken). -/
def csDelayLoop : ControlSystem :=
  match ControlSystemBuilder.build builderDelayLoop "loop" defaultParams with
  | .ok cs => cs
  | .error _ => { name := "", signals := [], blocks := []
                  params := defaultParams, step_info := StepInfo.new 1 }

/-- The block data registered for "C" in builderDelayLoop. -/
def bdLoopC : BlockData := (builderDelayLoop.blocks.get ⟨0, by decide⟩).2

/-- The block data registered for "D" in builderDelayLoop. -/
def bdLoopD : BlockData := (builderDelayLoop.blocks.get ⟨1, by decide⟩).2

/-- Builder whose single block reads a signal nobody produces. -/
def builderGhost : ControlSystemBuilder :=
  (add_block ControlSystemBuilder.empty blockSinkI32 [("u", "ghost")] []).1

/-- Bump a block's invocation counter by m (what m invocations do to the
instrumentation; the block data itself is unchanged for our port-less
fixture behaviours). -/
def add_calls (m : Nat) (rb : RBlock) : RBlock :=
  { rb with calls := rb.calls + m }

/-- A runtime with two always-Continue blocks and max_iter = 5. -/
def csMaxIter5 : ControlSystem :=
  { name := "r", signals := []
    blocks := [simpleRBlock "A" beh_continue, simpleRBlock "B" beh_continue]
    params := { dt := 1, max_iter := 5 }, step_info := StepInfo.new 1 }

/-- A runtime whose first block requests Stop on every step and whose
second block always continues. -/
def csStopFirst : ControlSystem :=
  { name := "r", signals := [], blocks := [simpleRBlock "S" beh_stop, simpleRBlock "A" beh_continue]
    params := { dt := 1, max_iter := 0 }, step_info := StepInfo.new 1 }

/-- A runtime stepping blocks continue, error, continue. -/
def csErrMid : ControlSystem :=
  { name := "r", signals := []
    blocks := [simpleRBlock "A" beh_continue, simpleRBlock "E" beh_err,
               simpleRBlock "B" beh_continue]
    params := { dt := 1, max_iter := 0 }, step_info := StepInfo.new 1 }

/-!
## Theorems
-/

/-- C1: the claim states that after some block returns Stop the runtime
still invokes step on every remaining block of the tick. The code instead
skips them: stop = stop || b.step(..)? short-circuits, contradicting the
source's own comment that the step must be completed. At the concrete
runtime csStopFirst (first block stops, second continues), the call
returns Stop but the second block's step is never invoked (0 calls,
against the 1 call the claim demands). -/
theorem c1_stop_skips_remaining_block :
    csStopFirst.step.2 = .ok .Stop ∧
    csStopFirst.step.1.blocks.map (fun rb => rb.calls) = [1, 0] :=
  ⟨rfl, rfl⟩

/-- C2: the claim states that a type mismatch between an input port and
its signal is reported as TypeError at build time. The code's build binds
input slots by direct assignment without any type check: on
builderMismatch (f64 signal s into i32 port u) build succeeds, the bound
cell keeps payload type f64, and the mismatch only surfaces when the
input's step-time downcast (AnySignal::try_get inside Input::get) fails. -/
theorem c2_type_mismatch_accepted_at_build :
    (ControlSystemBuilder.build builderMismatch "cs" defaultParams).map
      (fun cs => cs.blocks.map (fun rb => rb.data.input_signals.map
        (fun q => (q.1, q.2.map AnySignal.ty)))) =
      .ok [[], [("u", some "f64")]] ∧
    AnySignal.try_get { cellId := 0, ty := "f64", name := some "s" } "i32" =
      .error (.TypeError "s" "i32" "f64") :=
  ⟨rfl, rfl⟩

/-- C3: the claim states that after a successful build every input port of
every block is bound, including two ports of one block wired to the same
signal name. The code keys registered_inputs by signal name, so the wiring
(u1, s) is overwritten by (u2, s): on builderAlias build succeeds but port
u1 is left unbound (its slot still None), and Input::get on u1 would fail
at step time. -/
theorem c3_aliased_input_left_unbound :
    (ControlSystemBuilder.build builderAlias "cs" defaultParams).map
      (fun cs => cs.blocks.map (fun rb => rb.data.input_signals.map
        (fun q => (q.1, q.2.isSome)))) =
      .ok [[], [("u1", false), ("u2", true)]] :=
  rfl

/-! Lemmas about the stepping loop. -/

theorem continue_beq_stop : (StepResult.Continue == StepResult.Stop) = false := rfl

theorem stop_beq_stop : (StepResult.Stop == StepResult.Stop) = true := rfl

theorem map_add_calls_zero (l : List RBlock) : l.map (add_calls 0) = l := by
  induction l with
  | nil => rfl
  | cons a t ih =>
    simp only [List.map_cons, ih]
    rfl

/-- Once the stop flag is set, the loop invokes no further block: every
remaining block is passed through unchanged. -/
theorem step_blocks_skip (info : StepInfo) (blocks : List RBlock) :
    step_blocks info blocks true = (blocks, .ok true) := by
  induction blocks with
  | nil => rfl
  | cons b rest ih => simp [step_blocks, ih]

/-- When every block replies Continue, each block is invoked exactly once
and the stop flag stays clear. -/
theorem step_blocks_all_continue (info : StepInfo) (blocks : List RBlock)
    (h : ∀ rb ∈ blocks, rb.data.spec.behavior info = .ok .Continue) :
    step_blocks info blocks false = (blocks.map (add_calls 1), .ok false) := by
  induction blocks with
  | nil => rfl
  | cons b rest ih =>
    have hb := h b (List.mem_cons_self b rest)
    have ih' := ih (fun rb hrb => h rb (List.mem_cons_of_mem b hrb))
    simp [step_blocks, hb, continue_beq_stop, ih', add_calls]

/-- An all-Continue prefix commutes out of the loop. -/
theorem step_blocks_split (info : StepInfo) (pre rest : List RBlock)
    (hpre : ∀ rb ∈ pre, rb.data.spec.behavior info = .ok .Continue) :
    step_blocks info (pre ++ rest) false =
      (pre.map (add_calls 1) ++ (step_blocks info rest false).1,
       (step_blocks info rest false).2) := by
  induction pre with
  | nil => simp
  | cons b p ih =>
    have hb := hpre b (List.mem_cons_self b p)
    have ih' := ih (fun rb hrb => hpre rb (List.mem_cons_of_mem b hrb))
    simp [step_blocks, hb, continue_beq_stop, ih', add_calls]

/-- ControlSystem::step under all-Continue blocks: the result is Stop
exactly when max_iter > 0 and the incremented counter exceeds it. -/
theorem step_snd_all_continue (cs : ControlSystem)
    (h : ∀ rb ∈ cs.blocks, rb.data.spec.behavior cs.step_info = .ok .Continue) :
    cs.step.2 = .ok (if 0 < cs.params.max_iter ∧ cs.params.max_iter < cs.step_info.k + 1
      then StepResult.Stop else StepResult.Continue) := by
  simp [ControlSystem.step, step_blocks_all_continue _ _ h]

/-- ControlSystem::step under all-Continue blocks: every block's call
counter is bumped once, the parameters are unchanged, k advances by 1. -/
theorem step_fst_all_continue (cs : ControlSystem)
    (h : ∀ rb ∈ cs.blocks, rb.data.spec.behavior cs.step_info = .ok .Continue) :
    cs.step.1.blocks = cs.blocks.map (add_calls 1) ∧
    cs.step.1.params = cs.params ∧
    cs.step.1.step_info.k = cs.step_info.k + 1 := by
  refine ⟨?_, ?_, ?_⟩ <;> simp [ControlSystem.step, step_blocks_all_continue _ _ h]

/-- Invariant of iterated stepping under blocks that always Continue. -/
theorem stepN_all_continue (cs : ControlSystem)
    (h : ∀ rb ∈ cs.blocks, ∀ info, rb.data.spec.behavior info = .ok .Continue)
    (m : Nat) :
    (stepN cs m).blocks = cs.blocks.map (add_calls m) ∧
    (stepN cs m).params = cs.params ∧
    (stepN cs m).step_info.k = cs.step_info.k + m := by
  induction m with
  | zero =>
    exact ⟨(map_add_calls_zero cs.blocks).symm, rfl, rfl⟩
  | succ m ih =>
    obtain ⟨hb, hp, hk⟩ := ih
    have h' : ∀ rb ∈ (stepN cs m).blocks,
        rb.data.spec.behavior (stepN cs m).step_info = .ok .Continue := by
      rw [hb]
      intro rb hrb
      obtain ⟨rb₀, hrb₀, rfl⟩ := List.mem_map.mp hrb
      exact h rb₀ hrb₀ _
    obtain ⟨hb1, hp1, hk1⟩ := step_fst_all_continue (stepN cs m) h'
    refine ⟨?_, ?_, ?_⟩
    · show (stepN cs m).step.1.blocks = _
      rw [hb1, hb, List.map_map]
      rfl
    · show (stepN cs m).step.1.params = _
      rw [hp1, hp]
    · show (stepN cs m).step.1.step_info.k = _
      rw [hk1, hk]
      omega

/-- C6: a runtime whose blocks always Continue and never error, with the
step counter at its fresh value k = 1 and max_iter = n: calls 1..n-1 of
step return Continue, call n returns Stop (when n > 0), after n calls
every block has been invoked exactly n more times (n full ticks), and
with n = 0 the iteration count never makes step return Stop. -/
theorem c6_max_iter_stops_after_n_ticks (cs : ControlSystem) (n : Nat)
    (hmax : cs.params.max_iter = n) (hk : cs.step_info.k = 1)
    (hbeh : ∀ rb ∈ cs.blocks, ∀ info, rb.data.spec.behavior info = .ok .Continue) :
    (∀ m, 1 ≤ m → m < n → step_call_result cs m = .ok .Continue) ∧
    (0 < n → step_call_result cs n = .ok .Stop) ∧
    (stepN cs n).blocks.map (fun rb => rb.calls) =
      cs.blocks.map (fun rb => rb.calls + n) ∧
    (n = 0 → ∀ m, step_call_result cs m = .ok .Continue) := by
  have call_result : ∀ m' : Nat, step_call_result cs (m' + 1) =
      .ok (if 0 < n ∧ n < 1 + m' + 1 then StepResult.Stop else StepResult.Continue) := by
    intro m'
    obtain ⟨hb, hp, hkm⟩ := stepN_all_continue cs hbeh m'
    have h' : ∀ rb ∈ (stepN cs m').blocks,
        rb.data.spec.behavior (stepN cs m').step_info = .ok .Continue := by
      rw [hb]
      intro rb hrb
      obtain ⟨rb₀, hrb₀, rfl⟩ := List.mem_map.mp hrb
      exact hbeh rb₀ hrb₀ _
    have := step_snd_all_continue (stepN cs m') h'
    rw [hp, hmax, hkm, hk] at this
    exact this
  refine ⟨?_, ?_, ?_, ?_⟩
  · intro m h1 h2
    obtain ⟨m', rfl⟩ : ∃ m', m = m' + 1 := ⟨m - 1, by omega⟩
    rw [call_result m', if_neg (by omega)]
  · intro hn
    obtain ⟨m', rfl⟩ : ∃ m', n = m' + 1 := ⟨n - 1, by omega⟩
    rw [call_result m', if_pos (by omega)]
  · obtain ⟨hb, _, _⟩ := stepN_all_continue cs hbeh n
    rw [hb, List.map_map]
    rfl
  · rintro rfl m
    cases m with
    | zero =>
      show step_call_result cs (0 + 1) = _
      rw [call_result 0, if_neg (by omega)]
    | succ m' => rw [call_result m', if_neg (by omega)]

/-- Witness for C6 at a concrete runtime: two always-Continue blocks,
max_iter = 5, fresh counter; calls 1..4 Continue, call 5 Stop, each block
invoked 5 times. -/
theorem c6_witness :
    (csMaxIter5.params.max_iter = 5 ∧ csMaxIter5.step_info.k = 1 ∧
      (∀ rb ∈ csMaxIter5.blocks, ∀ info,
        rb.data.spec.behavior info = .ok .Continue)) ∧
    ((∀ m, 1 ≤ m → m < 5 → step_call_result csMaxIter5 m = .ok .Continue) ∧
      (0 < 5 → step_call_result csMaxIter5 5 = .ok .Stop) ∧
      (stepN csMaxIter5 5).blocks.map (fun rb => rb.calls) =
        csMaxIter5.blocks.map (fun rb => rb.calls + 5) ∧
      (5 = 0 → ∀ m, step_call_result csMaxIter5 m = .ok .Continue)) := by
  have hbeh : ∀ rb ∈ csMaxIter5.blocks, ∀ info,
      rb.data.spec.behavior info = .ok .Continue := by
    intro rb hrb info
    simp only [csMaxIter5, List.mem_cons, List.not_mem_nil, or_false] at hrb
    rcases hrb with rfl | rfl <;> rfl
  exact ⟨⟨rfl, rfl, hbeh⟩, c6_max_iter_stops_after_n_ticks csMaxIter5 5 rfl rfl hbeh⟩

/-- C9 counterexample: the claim's final clause says a Stop result lets
the tick complete; at csStopFirst the first block returns Stop and the
second block of the tick is never invoked (its counter stays 0). -/
theorem c9_counterexample_stop_aborts_tick :
    csStopFirst.step.2 = .ok .Stop ∧
    ¬ (∀ rb ∈ csStopFirst.step.1.blocks, rb.calls = 1) := by
  refine ⟨rfl, ?_⟩
  decide

/-- C9 (amended): in a tick whose blocks before b all Continue, if b's
step returns an error then ControlSystem::step returns that same error,
no block after b is invoked, and the step counter does not advance; if
instead b returns Stop, step returns Stop and the blocks after b are
likewise not invoked (short-circuit), rather than completing the tick. -/
theorem c9_error_propagates_and_aborts (cs : ControlSystem)
    (pre : List RBlock) (b : RBlock) (post : List RBlock)
    (e : ControlSystemError)
    (hsplit : cs.blocks = pre ++ b :: post)
    (hpre : ∀ rb ∈ pre, rb.data.spec.behavior cs.step_info = .ok .Continue) :
    (b.data.spec.behavior cs.step_info = .error e →
      cs.step.2 = .error e ∧
      cs.step.1.blocks = pre.map (add_calls 1) ++ add_calls 1 b :: post ∧
      cs.step.1.step_info = cs.step_info) ∧
    (b.data.spec.behavior cs.step_info = .ok .Stop →
      cs.step.2 = .ok .Stop ∧
      cs.step.1.blocks = pre.map (add_calls 1) ++ add_calls 1 b :: post) := by
  constructor
  · intro hb
    have hrun : step_blocks cs.step_info cs.blocks false =
        (pre.map (add_calls 1) ++ add_calls 1 b :: post, .error e) := by
      rw [hsplit, step_blocks_split _ _ _ hpre]
      simp [step_blocks, hb, add_calls]
    refine ⟨?_, ?_, ?_⟩ <;> simp [ControlSystem.step, hrun]
  · intro hb
    have hrun : step_blocks cs.step_info cs.blocks false =
        (pre.map (add_calls 1) ++ add_calls 1 b :: post, .ok true) := by
      rw [hsplit, step_blocks_split _ _ _ hpre]
      simp [step_blocks, hb, step_blocks_skip, add_calls]
    refine ⟨?_, ?_⟩ <;> simp [ControlSystem.step, hrun]

/-- Witness for C9 at csErrMid (blocks continue, error, continue): the
error of the middle block is returned as-is, the trailing block is never
invoked, and the step counter does not advance. -/
theorem c9_witness :
    (csErrMid.blocks = [simpleRBlock "A" beh_continue] ++
        simpleRBlock "E" beh_err :: [simpleRBlock "B" beh_continue] ∧
      (∀ rb ∈ [simpleRBlock "A" beh_continue],
        rb.data.spec.behavior csErrMid.step_info = .ok .Continue)) ∧
    (csErrMid.step.2 = .error (.UnknownSignal "p" "s" "b") ∧
      csErrMid.step.1.blocks =
        ([simpleRBlock "A" beh_continue]).map (add_calls 1) ++
          add_calls 1 (simpleRBlock "E" beh_err) ::
            [simpleRBlock "B" beh_continue] ∧
      csErrMid.step.1.step_info = csErrMid.step_info) := by
  have hpre : ∀ rb ∈ [simpleRBlock "A" beh_continue],
      rb.data.spec.behavior csErrMid.step_info = .ok .Continue := by
    intro rb hrb
    simp only [List.mem_singleton] at hrb
    subst hrb
    rfl
  exact ⟨⟨rfl, hpre⟩,
    (c9_error_propagates_and_aborts csErrMid [simpleRBlock "A" beh_continue]
      (simpleRBlock "E" beh_err) [simpleRBlock "B" beh_continue]
      (.UnknownSignal "p" "s" "b") rfl hpre).1 rfl⟩

/-! Association-list lemmas. -/

theorem alookup_nil {α : Type} (k : String) : alookup ([] : List (String × α)) k = none := rfl

theorem alookup_cons {α : Type} (p : String × α) (m : List (String × α)) (k : String) :
    alookup (p :: m) k = if p.1 = k then some p.2 else alookup m k := by
  by_cases h : p.1 = k <;> simp [alookup, List.find?_cons, h]

theorem alookup_isSome_iff_any {α : Type} (m : List (String × α)) (k : String) :
    (alookup m k).isSome = m.any (fun p => p.1 == k) := by
  induction m with
  | nil => rfl
  | cons p t ih =>
    rw [alookup_cons]
    by_cases h : p.1 = k <;> simp [h, ih]

theorem upsert_fresh {α : Type} (m : List (String × α)) (k : String) (v : α)
    (h : alookup m k = none) : upsert m k v = m ++ [(k, v)] := by
  have hany : m.any (fun p => p.1 == k) = false := by
    have := alookup_isSome_iff_any m k
    rw [h] at this
    exact this.symm
  simp [upsert, hany]

theorem alookup_append_single_ne {α : Type} (m : List (String × α)) (k k' : String)
    (v : α) (h : k' ≠ k) : alookup (m ++ [(k, v)]) k' = alookup m k' := by
  induction m with
  | nil =>
    rw [List.nil_append, alookup_cons, if_neg (fun hh => h hh.symm)]
  | cons p t ih =>
    rw [List.cons_append, alookup_cons, alookup_cons, ih]

theorem alookup_append_single_self {α : Type} (m : List (String × α)) (k : String)
    (v : α) (h : alookup m k = none) : alookup (m ++ [(k, v)]) k = some v := by
  induction m with
  | nil => simp [alookup, List.find?]
  | cons p t ih =>
    rw [alookup_cons] at h
    rw [List.cons_append, alookup_cons]
    by_cases hp : p.1 = k
    · simp [hp] at h
    · simp only [hp, if_false]
      exact ih (by simpa [hp] using h)

/-- Erasing an entry with a key different from the looked-up one does not
change the lookup. -/
theorem alookup_eraseP_ne {α : Type} (m : List (String × α)) (k k' : String)
    (h : k' ≠ k) : alookup (m.eraseP (fun q => q.1 == k)) k' = alookup m k' := by
  induction m with
  | nil => rfl
  | cons p t ih =>
    rw [List.eraseP_cons]
    by_cases hp : p.1 = k
    · have hb : (p.1 == k) = true := beq_iff_eq.mpr hp
      simp only [hb, cond_true]
      rw [alookup_cons, if_neg (fun hh : p.1 = k' => h (hh ▸ hp))]
    · have hb : (p.1 == k) = false := beq_eq_false_iff_ne.mpr hp
      simp only [hb, cond_false]
      rw [alookup_cons, alookup_cons, ih]

theorem alookup_eq_none_iff_keys {α : Type} (m : List (String × α)) (k : String) :
    alookup m k = none ↔ k ∉ m.map Prod.fst := by
  induction m with
  | nil => simp [alookup_nil]
  | cons p t ih =>
    rw [alookup_cons]
    by_cases hp : p.1 = k
    · simp [hp]
    · rw [if_neg hp, ih]
      simp only [List.map_cons, List.mem_cons, not_or]
      constructor
      · intro hk
        exact ⟨fun hh => hp hh.symm, hk⟩
      · intro hk
        exact hk.2

theorem mem_keys_of_alookup_isSome {α : Type} (m : List (String × α)) (k : String)
    (h : (alookup m k).isSome = true) : k ∈ m.map Prod.fst := by
  by_contra hk
  rw [← alookup_eq_none_iff_keys] at hk
  rw [hk] at h
  cases h

/-! Lemmas about the connect_inputs loop. -/

/-- A successful connect_inputs run consumes the remaining-ports set
exactly: the listed ports are a permutation of it. -/
theorem ci_ok_perm (conns : List (String × String)) :
    ∀ (bd : BlockData) (R : List String) (bd₂ : BlockData),
      connect_inputs_go bd R conns = .ok bd₂ → (conns.map Prod.fst).Perm R := by
  induction conns with
  | nil =>
    intro bd R bd₂ h
    simp only [connect_inputs_go] at h
    by_cases hR : R.isEmpty
    · rw [List.isEmpty_iff] at hR
      subst hR
      exact List.Perm.refl _
    · rw [if_neg hR] at h
      cases h
  | cons c rest ih =>
    intro bd R bd₂ h
    obtain ⟨q, s⟩ := c
    simp only [connect_inputs_go] at h
    by_cases hq : R.contains q
    · rw [if_pos hq] at h
      have hmem : q ∈ R := by simpa using hq
      have hperm := ih _ _ _ h
      exact (hperm.cons q).trans (List.perm_cons_erase hmem).symm
    · rw [if_neg hq] at h
      cases h

/-- If a run succeeds from R minus one port p, then the same connection
list run from R completes the loop but ends with p (at least) unwired:
UnconnectedPorts naming p. -/
theorem ci_run_with_extra (conns : List (String × String)) :
    ∀ (R : List String) (p : String) (bd bd₂ bd₁ : BlockData),
      connect_inputs_go bd (R.erase p) conns = .ok bd₂ →
      p ∈ R → R.Nodup →
      ∃ ports, connect_inputs_go bd₁ R conns =
          .error (.UnconnectedPorts ports bd₁.spec.name) ∧ p ∈ ports := by
  induction conns with
  | nil =>
    intro R p bd bd₂ bd₁ _h hp _hnd
    have hR : ¬ R.isEmpty = true := by
      cases R with
      | nil => cases hp
      | cons a t => simp
    refine ⟨R, ?_, hp⟩
    simp only [connect_inputs_go]
    rw [if_neg hR]
  | cons c rest ih =>
    intro R p bd bd₂ bd₁ h hp hnd
    obtain ⟨q, s⟩ := c
    simp only [connect_inputs_go] at h ⊢
    by_cases hq : (R.erase p).contains q
    · rw [if_pos hq] at h
      have hqmem : q ∈ R.erase p := by simpa using hq
      have hqR : q ∈ R := List.mem_of_mem_erase hqmem
      have hqc : R.contains q = true := by simpa using hqR
      rw [if_pos hqc]
      have hqp : q ≠ p := ((List.Nodup.mem_erase_iff hnd).mp hqmem).1
      have hpR' : p ∈ R.erase q :=
        (List.Nodup.mem_erase_iff hnd).mpr ⟨fun hh => hqp hh.symm, hp⟩
      have h' : connect_inputs_go
          { bd with registered_inputs := upsert bd.registered_inputs s q }
          ((R.erase q).erase p) rest = .ok bd₂ := by
        rw [List.erase_comm]
        exact h
      exact ih (R.erase q) p _ bd₂ _ h' hpR' (hnd.erase q)
    · rw [if_neg hq] at h
      cases h

/-- Removing the i-th connection from a successful connect_inputs run
turns it into an UnconnectedPorts failure naming the removed port. -/
theorem ci_removal (conns : List (String × String)) :
    ∀ (R : List String) (bd bd₂ : BlockData) (i : Nat) (hi : i < conns.length)
      (bd₁ : BlockData),
      R.Nodup → connect_inputs_go bd R conns = .ok bd₂ →
      ∃ ports, connect_inputs_go bd₁ R (conns.eraseIdx i) =
          .error (.UnconnectedPorts ports bd₁.spec.name) ∧
        (conns.get ⟨i, hi⟩).1 ∈ ports := by
  induction conns with
  | nil =>
    intro R bd bd₂ i hi
    exact absurd hi (by simp)
  | cons c rest ih =>
    intro R bd bd₂ i hi bd₁ hnd h
    obtain ⟨q, s⟩ := c
    simp only [connect_inputs_go] at h
    by_cases hq : R.contains q
    · rw [if_pos hq] at h
      have hqR : q ∈ R := by simpa using hq
      cases i with
      | zero =>
        exact ci_run_with_extra rest R q _ bd₂ bd₁ h hqR hnd
      | succ j =>
        have hj : j < rest.length := by simpa using hi
        obtain ⟨ports, hrun, hmem⟩ :=
          ih (R.erase q) _ bd₂ j hj
            { bd₁ with registered_inputs := upsert bd₁.registered_inputs s q }
            (hnd.erase q) h
        refine ⟨ports, ?_, hmem⟩
        show connect_inputs_go bd₁ R ((q, s) :: rest.eraseIdx j) = _
        simp only [connect_inputs_go]
        rw [if_pos hq]
        exact hrun
    · rw [if_neg hq] at h
      cases h

/-! More association-list lemmas, for the keyed erase used by
connect_outputs. -/

theorem keys_perm_eraseP {α : Type} (m : List (String × α)) (k : String)
    (h : (alookup m k).isSome = true) :
    (m.map Prod.fst).Perm (k :: (m.eraseP (fun q => q.1 == k)).map Prod.fst) := by
  induction m with
  | nil => cases h
  | cons p t ih =>
    by_cases hp : p.1 = k
    · have hb : (p.1 == k) = true := beq_iff_eq.mpr hp
      rw [List.eraseP_cons]
      simp only [hb, cond_true]
      rw [List.map_cons, hp]
    · have hb : (p.1 == k) = false := beq_eq_false_iff_ne.mpr hp
      rw [List.eraseP_cons]
      simp only [hb, cond_false, List.map_cons]
      have ht : (alookup t k).isSome = true := by
        rw [alookup_cons, if_neg hp] at h
        exact h
      exact ((ih ht).cons p.1).trans (List.Perm.swap k p.1 _)

theorem alookup_eraseP_self {α : Type} (m : List (String × α)) (k : String)
    (hnd : (m.map Prod.fst).Nodup) :
    alookup (m.eraseP (fun q => q.1 == k)) k = none := by
  induction m with
  | nil => rfl
  | cons p t ih =>
    rw [List.map_cons, List.nodup_cons] at hnd
    rw [List.eraseP_cons]
    by_cases hp : p.1 = k
    · have hb : (p.1 == k) = true := beq_iff_eq.mpr hp
      simp only [hb, cond_true]
      rw [alookup_eq_none_iff_keys]
      rw [← hp]
      exact hnd.1
    · have hb : (p.1 == k) = false := beq_eq_false_iff_ne.mpr hp
      simp only [hb, cond_false]
      rw [alookup_cons, if_neg hp]
      exact ih hnd.2

theorem eraseP_key_comm {α : Type} (m : List (String × α)) (p q : String)
    (hpq : p ≠ q) :
    (m.eraseP (fun x => x.1 == p)).eraseP (fun x => x.1 == q) =
    (m.eraseP (fun x => x.1 == q)).eraseP (fun x => x.1 == p) := by
  induction m with
  | nil => rfl
  | cons a t ih =>
    by_cases hap : a.1 = p
    · have haq : ¬ a.1 = q := fun hh => hpq (hap ▸ hh ▸ rfl)
      have hbp : (a.1 == p) = true := beq_iff_eq.mpr hap
      have hbq : (a.1 == q) = false := beq_eq_false_iff_ne.mpr haq
      rw [List.eraseP_cons, List.eraseP_cons]
      simp only [hbp, cond_true, hbq, cond_false]
      rw [List.eraseP_cons]
      simp only [hbp, cond_true]
    · by_cases haq : a.1 = q
      · have hbp : (a.1 == p) = false := beq_eq_false_iff_ne.mpr hap
        have hbq : (a.1 == q) = true := beq_iff_eq.mpr haq
        rw [List.eraseP_cons, List.eraseP_cons]
        simp only [hbp, cond_false, hbq, cond_true]
        rw [List.eraseP_cons]
        simp only [hbq, cond_true]
      · have hbp : (a.1 == p) = false := beq_eq_false_iff_ne.mpr hap
        have hbq : (a.1 == q) = false := beq_eq_false_iff_ne.mpr haq
        rw [List.eraseP_cons, List.eraseP_cons]
        simp only [hbp, cond_false, hbq, cond_false]
        rw [List.eraseP_cons, List.eraseP_cons]
        simp only [hbp, cond_false, hbq, cond_false, ih]

theorem keys_nodup_eraseP {α : Type} (m : List (String × α)) (k : String)
    (hnd : (m.map Prod.fst).Nodup) :
    ((m.eraseP (fun q => q.1 == k)).map Prod.fst).Nodup :=
  hnd.sublist ((m.eraseP_sublist).map Prod.fst)

theorem mk_block_data_input_keys (spec : BlockSpec) (base : Nat) :
    (mk_block_data spec base).input_signals.map Prod.fst = spec.inputs.map Prod.fst := by
  show (spec.inputs.map _).map Prod.fst = _
  rw [List.map_map]
  rfl

theorem mk_block_data_output_keys (spec : BlockSpec) (base : Nat) :
    (mk_block_data spec base).output_signals.map Prod.fst = spec.outputs.map Prod.fst := by
  show (spec.outputs.enum.map _).map Prod.fst = _
  rw [List.map_map]
  calc spec.outputs.enum.map (Prod.fst ∘ fun q => (q.2.1, _))
      = (spec.outputs.enum.map Prod.snd).map Prod.fst := by rw [List.map_map]; rfl
    _ = spec.outputs.map Prod.fst := by rw [List.enum_map_snd]

/-! Lemmas about the connect_outputs loop. -/

/-- The loop distributes over appended connection lists. -/
theorem co_go_append (pre : List (String × String)) :
    ∀ (suf : List (String × String)) (acc : OutAcc),
      connect_outputs_go acc (pre ++ suf) =
        match connect_outputs_go acc pre with
        | (acc₁, none) => connect_outputs_go acc₁ suf
        | (acc₁, some e) => (acc₁, some e) := by
  induction pre with
  | nil => intro suf acc; rfl
  | cons c rest ih =>
    intro suf acc
    obtain ⟨q, sname⟩ := c
    show connect_outputs_go acc ((q, sname) :: (rest ++ suf)) = _
    simp only [connect_outputs_go]
    by_cases hs : (alookup acc.signals sname).isSome
    · rw [if_pos hs, if_pos hs]
    · rw [if_neg hs, if_neg hs]
      cases hrem : alookup acc.remaining q with
      | none => rfl
      | some sig => exact ih suf _

/-- Entries already present in the builder's signal map survive the loop
unchanged (the loop only adds signal names it checked to be fresh). -/
theorem co_go_signals_preserve (conns : List (String × String)) :
    ∀ (acc : OutAcc) (k : String) (v : AnySignal),
      alookup acc.signals k = some v →
      alookup (connect_outputs_go acc conns).1.signals k = some v := by
  induction conns with
  | nil => intro acc k v h; exact h
  | cons c rest ih =>
    intro acc k v h
    obtain ⟨q, sname⟩ := c
    simp only [connect_outputs_go]
    by_cases hs : (alookup acc.signals sname).isSome
    · rw [if_pos hs]
      exact h
    · rw [if_neg hs]
      cases hrem : alookup acc.remaining q with
      | none => exact h
      | some sig =>
        apply ih
        show alookup (upsert acc.signals sname _) k = some v
        have hfresh : alookup acc.signals sname = none :=
          Option.not_isSome_iff_eq_none.mp hs
        have hkne : k ≠ sname := by
          intro hh
          rw [hh, hfresh] at h
          cases h
        rw [upsert_fresh _ _ _ hfresh, alookup_append_single_ne _ _ _ _ hkne]
        exact h

/-- The loop never removes a signal name: presence is monotone. -/
theorem co_go_signals_mono (conns : List (String × String)) :
    ∀ (acc : OutAcc) (k : String),
      (alookup acc.signals k).isSome = true →
      (alookup (connect_outputs_go acc conns).1.signals k).isSome = true := by
  intro acc k h
  obtain ⟨v, hv⟩ := Option.isSome_iff_exists.mp h
  rw [co_go_signals_preserve conns acc k v hv]
  rfl

/-- If a loop run completes (no error) from a state whose remaining port
map lacks the port p, then from the same state with p restored it also
completes, p is still unwired at the end, and the final state's remaining
map is the p-restored version of the original final state's. The new
initial signal map may be any map whose keys are a subset of the old
one's. -/
theorem co_go_run_with_extra (conns : List (String × String)) :
    ∀ (sigsO sigsN : List (String × AnySignal))
      (remO remN : List (String × AnySignal)) (bdO bdN : BlockData)
      (accO : OutAcc) (p : String),
      connect_outputs_go ⟨sigsO, bdO, remO⟩ conns = (accO, none) →
      (∀ k, (alookup sigsN k).isSome = true → (alookup sigsO k).isSome = true) →
      remN.eraseP (fun q => q.1 == p) = remO →
      (alookup remN p).isSome = true →
      (remN.map Prod.fst).Nodup →
      ∃ accN, connect_outputs_go ⟨sigsN, bdN, remN⟩ conns = (accN, none) ∧
        accN.bd.spec.name = bdN.spec.name ∧
        accO.remaining = accN.remaining.eraseP (fun q => q.1 == p) ∧
        (alookup accN.remaining p).isSome = true := by
  induction conns with
  | nil =>
    intro sigsO sigsN remO remN bdO bdN accO p h hkeys hrem hp hnd
    refine ⟨⟨sigsN, bdN, remN⟩, rfl, rfl, ?_, hp⟩
    have : accO = ⟨sigsO, bdO, remO⟩ := by
      have := congrArg Prod.fst h
      exact this.symm
    rw [this, ← hrem]
  | cons c rest ih =>
    intro sigsO sigsN remO remN bdO bdN accO p h hkeys hrem hp hnd
    obtain ⟨q, sname⟩ := c
    simp only [connect_outputs_go] at h ⊢
    by_cases hsO : (alookup sigsO sname).isSome
    · rw [if_pos hsO] at h
      cases h
    · rw [if_neg hsO] at h
      have hsN : ¬ (alookup sigsN sname).isSome = true := by
        intro hh
        exact hsO (hkeys sname hh)
      rw [if_neg hsN]
      cases hremO : alookup remO q with
      | none =>
        rw [hremO] at h
        cases h
      | some sig =>
        rw [hremO] at h
        have hqp : q ≠ p := by
          intro hh
          rw [hh, ← hrem, alookup_eraseP_self remN p hnd] at hremO
          cases hremO
        have hremN : alookup remN q = some sig := by
          rw [← hrem, alookup_eraseP_ne remN p q hqp] at hremO
          exact hremO
        rw [hremN]
        have hfreshO : alookup sigsO sname = none :=
          Option.not_isSome_iff_eq_none.mp hsO
        have hfreshN : alookup sigsN sname = none :=
          Option.not_isSome_iff_eq_none.mp hsN
        have hkeys' : ∀ k,
            (alookup (upsert sigsN sname { sig with name := some sname }) k).isSome = true →
            (alookup (upsert sigsO sname { sig with name := some sname }) k).isSome = true := by
          intro k hk
          by_cases hks : k = sname
          · rw [hks, upsert_fresh _ _ _ hfreshO,
              alookup_append_single_self _ _ _ hfreshO]
            rfl
          · rw [upsert_fresh _ _ _ hfreshN, alookup_append_single_ne _ _ _ _ hks] at hk
            rw [upsert_fresh _ _ _ hfreshO, alookup_append_single_ne _ _ _ _ hks]
            exact hkeys k hk
        have hrem' : (remN.eraseP (fun x => x.1 == q)).eraseP (fun x => x.1 == p) =
            remO.eraseP (fun x => x.1 == q) := by
          rw [eraseP_key_comm remN q p hqp, hrem]
        have hp' : (alookup (remN.eraseP (fun x => x.1 == q)) p).isSome = true := by
          rw [alookup_eraseP_ne remN q p (fun hh => hqp hh.symm)]
          exact hp
        have hnd' : ((remN.eraseP (fun x => x.1 == q)).map Prod.fst).Nodup :=
          keys_nodup_eraseP remN q hnd
        exact ih _ _ _ _ _ _ accO p h hkeys' hrem' hp' hnd'

/-- A completed loop run consumes exactly the listed ports from the
remaining map. -/
theorem co_go_keys_perm (conns : List (String × String)) :
    ∀ (acc : OutAcc) (accO : OutAcc),
      connect_outputs_go acc conns = (accO, none) →
      (acc.remaining.map Prod.fst).Perm
        (conns.map Prod.fst ++ accO.remaining.map Prod.fst) := by
  induction conns with
  | nil =>
    intro acc accO h
    have : acc = accO := congrArg Prod.fst h
    rw [← this]
    exact List.Perm.refl _
  | cons c rest ih =>
    intro acc accO h
    obtain ⟨q, sname⟩ := c
    simp only [connect_outputs_go] at h
    by_cases hs : (alookup acc.signals sname).isSome
    · rw [if_pos hs] at h
      cases h
    · rw [if_neg hs] at h
      cases hrem : alookup acc.remaining q with
      | none =>
        rw [hrem] at h
        cases h
      | some sig =>
        rw [hrem] at h
        have hperm := ih _ _ h
        have hq : (alookup acc.remaining q).isSome = true := by
          rw [hrem]; rfl
        exact List.Perm.trans (keys_perm_eraseP _ _ hq) (hperm.cons q)

/-- Removing the i-th connection from a completed loop run leaves a run
that still completes but ends with the removed port unwired. -/
theorem co_go_removal (conns : List (String × String)) :
    ∀ (acc : OutAcc) (accO : OutAcc) (i : Nat) (hi : i < conns.length),
      (acc.remaining.map Prod.fst).Nodup →
      connect_outputs_go acc conns = (accO, none) →
      ∃ accN, connect_outputs_go acc (conns.eraseIdx i) = (accN, none) ∧
        accN.bd.spec.name = acc.bd.spec.name ∧
        accO.remaining = accN.remaining.eraseP
          (fun x => x.1 == (conns.get ⟨i, hi⟩).1) ∧
        (alookup accN.remaining (conns.get ⟨i, hi⟩).1).isSome = true := by
  induction conns with
  | nil =>
    intro acc accO i hi
    exact absurd hi (by simp)
  | cons c rest ih =>
    intro acc accO i hi hnd h
    obtain ⟨q, sname⟩ := c
    simp only [connect_outputs_go] at h
    by_cases hs : (alookup acc.signals sname).isSome
    · rw [if_pos hs] at h
      cases h
    · rw [if_neg hs] at h
      cases hrem : alookup acc.remaining q with
      | none =>
        rw [hrem] at h
        cases h
      | some sig =>
        rw [hrem] at h
        cases i with
        | zero =>
          have hfresh : alookup acc.signals sname = none :=
            Option.not_isSome_iff_eq_none.mp hs
          have hkeys : ∀ k, (alookup acc.signals k).isSome = true →
              (alookup (upsert acc.signals sname { sig with name := some sname }) k).isSome = true := by
            intro k hk
            by_cases hks : k = sname
            · rw [hks, hfresh] at hk
              cases hk
            · rw [upsert_fresh _ _ _ hfresh, alookup_append_single_ne _ _ _ _ hks]
              exact hk
          have hq : (alookup acc.remaining q).isSome = true := by
            rw [hrem]; rfl
          obtain ⟨accN, hrun, hname, hremEq, hpmem⟩ :=
            co_go_run_with_extra rest _ acc.signals _ acc.remaining _ acc.bd accO q
              h hkeys rfl hq hnd
          exact ⟨accN, hrun, hname, hremEq, hpmem⟩
        | succ j =>
          have hj : j < rest.length := by simpa using hi
          have hnd' : ((acc.remaining.eraseP (fun x => x.1 == q)).map Prod.fst).Nodup :=
            keys_nodup_eraseP acc.remaining q hnd
          obtain ⟨accN, hrun, hname, hremEq, hpmem⟩ := ih _ accO j hj hnd' h
          refine ⟨accN, ?_, hname, hremEq, hpmem⟩
          show connect_outputs_go acc ((q, sname) :: rest.eraseIdx j) = _
          simp only [connect_outputs_go]
          rw [if_neg hs, hrem]
          exact hrun

/-- Unpacking a successful connect_outputs call. -/
theorem connect_outputs_ok_parts (sigs : List (String × AnySignal)) (bd : BlockData)
    (conns : List (String × String)) (sig₂ : List (String × AnySignal))
    (bd₂ : BlockData)
    (h : connect_outputs sigs bd conns = (sig₂, .ok bd₂)) :
    ∃ accO, connect_outputs_go ⟨sigs, bd, bd.output_signals⟩ conns = (accO, none) ∧
      accO.remaining = [] ∧ accO.signals = sig₂ ∧ accO.bd = bd₂ := by
  unfold connect_outputs at h
  cases hgo : connect_outputs_go ⟨sigs, bd, bd.output_signals⟩ conns with
  | mk accO e =>
    rw [hgo] at h
    cases e with
    | some e' => cases h
    | none =>
      have h' : (if accO.remaining.isEmpty then
            ((accO.signals, Except.ok accO.bd) :
              List (String × AnySignal) × Except ControlSystemError BlockData)
          else (accO.signals, .error
            (.UnconnectedPorts (accO.remaining.map (fun x => x.1)) accO.bd.spec.name))) =
          (sig₂, .ok bd₂) := h
      by_cases hre : accO.remaining.isEmpty
      · rw [if_pos hre] at h'
        refine ⟨accO, rfl, List.isEmpty_iff.mp hre, ?_, ?_⟩
        · exact congrArg Prod.fst h'
        · have := congrArg Prod.snd h'
          simpa using this
      · rw [if_neg hre] at h'
        cases h'

/-- Removing the i-th output connection from a successful connect_outputs
run produces UnconnectedPorts naming the removed port. -/
theorem co_removal (sigs : List (String × AnySignal)) (bd : BlockData)
    (oc : List (String × String)) (sig₂ : List (String × AnySignal))
    (bd₂ : BlockData) (i : Nat) (hi : i < oc.length)
    (hnd : (bd.output_signals.map Prod.fst).Nodup)
    (h : connect_outputs sigs bd oc = (sig₂, .ok bd₂)) :
    ∃ sigX ports, connect_outputs sigs bd (oc.eraseIdx i) =
        (sigX, .error (.UnconnectedPorts ports bd.spec.name)) ∧
      (oc.get ⟨i, hi⟩).1 ∈ ports := by
  obtain ⟨accO, hgo, hempty, _, _⟩ := connect_outputs_ok_parts sigs bd oc sig₂ bd₂ h
  obtain ⟨accN, hrun, hname, hremEq, hpmem⟩ :=
    co_go_removal oc ⟨sigs, bd, bd.output_signals⟩ accO i hi hnd hgo
  have hne : ¬ accN.remaining.isEmpty = true := by
    intro hh
    rw [List.isEmpty_iff] at hh
    rw [hh] at hpmem
    cases hpmem
  refine ⟨accN.signals, accN.remaining.map Prod.fst, ?_, ?_⟩
  · unfold connect_outputs
    rw [hrun]
    show (if accN.remaining.isEmpty then
          ((accN.signals, Except.ok accN.bd) :
            List (String × AnySignal) × Except ControlSystemError BlockData)
        else (accN.signals, .error
          (.UnconnectedPorts (accN.remaining.map (fun x => x.1)) accN.bd.spec.name))) = _
    rw [if_neg hne, hname]
  · exact mem_keys_of_alookup_isSome _ _ hpmem

/-- A successful connect_inputs run leaves the block's spec, input slots
and output cells untouched (it only records wiring). -/
theorem ci_go_preserves (conns : List (String × String)) :
    ∀ (bd : BlockData) (R : List String) (bd₂ : BlockData),
      connect_inputs_go bd R conns = .ok bd₂ →
      bd₂.spec = bd.spec ∧ bd₂.output_signals = bd.output_signals ∧
        bd₂.input_signals = bd.input_signals := by
  induction conns with
  | nil =>
    intro bd R bd₂ h
    simp only [connect_inputs_go] at h
    by_cases hR : R.isEmpty
    · rw [if_pos hR] at h
      cases h
      exact ⟨rfl, rfl, rfl⟩
    · rw [if_neg hR] at h
      cases h
  | cons c rest ih =>
    intro bd R bd₂ h
    obtain ⟨q, s⟩ := c
    simp only [connect_inputs_go] at h
    by_cases hq : R.contains q
    · rw [if_pos hq] at h
      exact ih { bd with registered_inputs := upsert bd.registered_inputs s q } _ _ h
    · rw [if_neg hq] at h
      cases h

/-! Lemmas about add_block. -/

/-- A successful add_block decomposes into: no duplicate name, inputs
wired, outputs wired. -/
theorem add_block_ok_parts (b : ControlSystemBuilder) (spec : BlockSpec)
    (ic oc : List (String × String))
    (hok : (add_block b spec ic oc).2 = .ok ()) :
    ¬ (alookup b.blocks spec.name).isSome = true ∧
    ∃ bd1 sig₂ bd₂, connect_inputs (mk_block_data spec b.next_cell) ic = .ok bd1 ∧
      connect_outputs b.signals bd1 oc = (sig₂, .ok bd₂) := by
  by_cases hdup : (alookup b.blocks spec.name).isSome
  · have : (add_block b spec ic oc).2 = .error (.DuplicateBlockName spec.name) := by
      simp only [add_block]
      rw [if_pos hdup]
    rw [this] at hok
    cases hok
  · refine ⟨hdup, ?_⟩
    cases hci : connect_inputs (mk_block_data spec b.next_cell) ic with
    | error e =>
      have : (add_block b spec ic oc).2 = .error e := by
        simp only [add_block]
        rw [if_neg hdup, hci]
      rw [this] at hok
      cases hok
    | ok bd1 =>
      cases hco : connect_outputs b.signals bd1 oc with
      | mk sig₂ r =>
        cases r with
        | error e =>
          have : (add_block b spec ic oc).2 = .error e := by
            simp only [add_block]
            rw [if_neg hdup]
            simp only [hci, hco]
          rw [this] at hok
          cases hok
        | ok bd₂ => exact ⟨bd1, sig₂, bd₂, rfl, hco⟩

/-- An input-wiring failure propagates out of add_block unchanged. -/
theorem add_block_input_error (b : ControlSystemBuilder) (spec : BlockSpec)
    (ic oc : List (String × String)) (e : ControlSystemError)
    (hdup : ¬ (alookup b.blocks spec.name).isSome = true)
    (hci : connect_inputs (mk_block_data spec b.next_cell) ic = .error e) :
    (add_block b spec ic oc).2 = .error e := by
  simp only [add_block]
  rw [if_neg hdup, hci]

/-- An output-wiring failure propagates out of add_block unchanged. -/
theorem add_block_output_error (b : ControlSystemBuilder) (spec : BlockSpec)
    (ic oc : List (String × String)) (bd1 : BlockData)
    (sig' : List (String × AnySignal)) (e : ControlSystemError)
    (hdup : ¬ (alookup b.blocks spec.name).isSome = true)
    (hci : connect_inputs (mk_block_data spec b.next_cell) ic = .ok bd1)
    (hco : connect_outputs b.signals bd1 oc = (sig', .error e)) :
    (add_block b spec ic oc).2 = .error e := by
  simp only [add_block]
  rw [if_neg hdup]
  simp only [hci, hco]

/-- C7: (i) when add_block succeeds, every declared input and output port
of the block occurs exactly once among the supplied connection entries;
(ii) removing any single input or output connection entry makes the
registration fail with UnconnectedPorts listing the removed entry's port.
(The declared port names of a block are pairwise distinct — in the source
they are HashMap keys, and the derive macro asserts their uniqueness.) -/
theorem c7_total_wiring (b : ControlSystemBuilder) (spec : BlockSpec)
    (ic oc : List (String × String))
    (hnd_in : (spec.inputs.map Prod.fst).Nodup)
    (hnd_out : (spec.outputs.map Prod.fst).Nodup)
    (hok : (add_block b spec ic oc).2 = .ok ()) :
    (∀ p ∈ spec.inputs.map Prod.fst, (ic.map Prod.fst).count p = 1) ∧
    (∀ p ∈ spec.outputs.map Prod.fst, (oc.map Prod.fst).count p = 1) ∧
    (∀ i, ∀ hi : i < ic.length, ∃ ports,
      (add_block b spec (ic.eraseIdx i) oc).2 =
        .error (.UnconnectedPorts ports spec.name) ∧ (ic.get ⟨i, hi⟩).1 ∈ ports) ∧
    (∀ i, ∀ hi : i < oc.length, ∃ ports,
      (add_block b spec ic (oc.eraseIdx i)).2 =
        .error (.UnconnectedPorts ports spec.name) ∧ (oc.get ⟨i, hi⟩).1 ∈ ports) := by
  obtain ⟨hdup, bd1, sig₂, bd₂, hci, hco⟩ := add_block_ok_parts b spec ic oc hok
  have hpres := ci_go_preserves ic _ _ _ hci
  have hin_keys : (mk_block_data spec b.next_cell).input_signals.map
      (fun x => x.1) = spec.inputs.map Prod.fst :=
    mk_block_data_input_keys spec b.next_cell
  have hperm_in : (ic.map Prod.fst).Perm (spec.inputs.map Prod.fst) := by
    have h1 : (ic.map Prod.fst).Perm
        ((mk_block_data spec b.next_cell).input_signals.map (fun x => x.1)) :=
      ci_ok_perm ic _ _ _ hci
    rw [hin_keys] at h1
    exact h1
  have hout_keys : bd1.output_signals.map Prod.fst = spec.outputs.map Prod.fst := by
    rw [hpres.2.1]
    exact mk_block_data_output_keys spec b.next_cell
  have hperm_out : (oc.map Prod.fst).Perm (spec.outputs.map Prod.fst) := by
    obtain ⟨accO, hgo, hempty, _, _⟩ := connect_outputs_ok_parts _ _ _ _ _ hco
    have h1 := co_go_keys_perm oc _ _ hgo
    rw [hempty] at h1
    simp only [List.map_nil, List.append_nil] at h1
    rw [hout_keys] at h1
    exact h1.symm
  refine ⟨?_, ?_, ?_, ?_⟩
  · intro p hp
    rw [hperm_in.count_eq]
    exact List.count_eq_one_of_mem hnd_in hp
  · intro p hp
    rw [hperm_out.count_eq]
    exact List.count_eq_one_of_mem hnd_out hp
  · intro i hi
    have hndR : ((mk_block_data spec b.next_cell).input_signals.map
        (fun x => x.1)).Nodup := by
      rw [hin_keys]
      exact hnd_in
    obtain ⟨ports, herr, hmem⟩ :=
      ci_removal ic _ _ _ i hi (mk_block_data spec b.next_cell) hndR hci
    exact ⟨ports, add_block_input_error b spec _ oc _ hdup herr, hmem⟩
  · intro i hi
    have hndO : (bd1.output_signals.map Prod.fst).Nodup := by
      rw [hout_keys]
      exact hnd_out
    obtain ⟨sigX, ports, herr, hmem⟩ :=
      co_removal b.signals bd1 oc sig₂ bd₂ i hi hndO hco
    rw [hpres.1] at herr
    exact ⟨ports, add_block_output_error b spec ic _ bd1 sigX _ hdup hci herr, hmem⟩

/-- Witness for C7: a block with ports u1, u2, y1, y2 fully wired; the
counts are all 1 and every single-entry removal fails naming the port. -/
theorem c7_witness :
    ((blockWide.inputs.map Prod.fst).Nodup ∧
      (blockWide.outputs.map Prod.fst).Nodup ∧
      (add_block ControlSystemBuilder.empty blockWide
        [("u1", "a"), ("u2", "b")] [("y1", "c"), ("y2", "d")]).2 = .ok ()) ∧
    ((∀ p ∈ blockWide.inputs.map Prod.fst,
        (([("u1", "a"), ("u2", "b")] : List (String × String)).map Prod.fst).count p = 1) ∧
      (∀ p ∈ blockWide.outputs.map Prod.fst,
        (([("y1", "c"), ("y2", "d")] : List (String × String)).map Prod.fst).count p = 1) ∧
      (∀ i, ∀ hi : i < ([("u1", "a"), ("u2", "b")] : List (String × String)).length,
        ∃ ports, (add_block ControlSystemBuilder.empty blockWide
            (([("u1", "a"), ("u2", "b")] : List (String × String)).eraseIdx i)
            [("y1", "c"), ("y2", "d")]).2 =
          .error (.UnconnectedPorts ports blockWide.name) ∧
          (([("u1", "a"), ("u2", "b")] : List (String × String)).get ⟨i, hi⟩).1 ∈ ports) ∧
      (∀ i, ∀ hi : i < ([("y1", "c"), ("y2", "d")] : List (String × String)).length,
        ∃ ports, (add_block ControlSystemBuilder.empty blockWide
            [("u1", "a"), ("u2", "b")]
            (([("y1", "c"), ("y2", "d")] : List (String × String)).eraseIdx i)).2 =
          .error (.UnconnectedPorts ports blockWide.name) ∧
          (([("y1", "c"), ("y2", "d")] : List (String × String)).get ⟨i, hi⟩).1 ∈ ports)) := by
  have h1 : (blockWide.inputs.map Prod.fst).Nodup := by decide
  have h2 : (blockWide.outputs.map Prod.fst).Nodup := by decide
  have h3 : (add_block ControlSystemBuilder.empty blockWide
      [("u1", "a"), ("u2", "b")] [("y1", "c"), ("y2", "d")]).2 = .ok () := rfl
  exact ⟨⟨h1, h2, h3⟩,
    c7_total_wiring ControlSystemBuilder.empty blockWide
      [("u1", "a"), ("u2", "b")] [("y1", "c"), ("y2", "d")] h1 h2 h3⟩

/-! Lemmas for the producer-conflict and non-atomicity claims. -/

/-- The loop never changes the block's spec. -/
theorem co_go_spec_preserved (conns : List (String × String)) :
    ∀ (acc : OutAcc), ((connect_outputs_go acc conns).1).bd.spec = acc.bd.spec := by
  induction conns with
  | nil => intro acc; rfl
  | cons c rest ih =>
    intro acc
    obtain ⟨q, sname⟩ := c
    simp only [connect_outputs_go]
    by_cases hs : (alookup acc.signals sname).isSome
    · rw [if_pos hs]
    · rw [if_neg hs]
      cases hrem : alookup acc.remaining q with
      | none => rfl
      | some sig => exact ih _

/-- Every connection processed by a completed loop run has its signal name
registered in the final signal map. -/
theorem co_go_conn_signal (conns : List (String × String)) :
    ∀ (acc acc' : OutAcc), connect_outputs_go acc conns = (acc', none) →
      ∀ q sn, (q, sn) ∈ conns → (alookup acc'.signals sn).isSome = true := by
  induction conns with
  | nil =>
    intro acc acc' _ q sn hmem
    cases hmem
  | cons c rest ih =>
    intro acc acc' h q sn hmem
    obtain ⟨q0, sn0⟩ := c
    simp only [connect_outputs_go] at h
    by_cases hs : (alookup acc.signals sn0).isSome
    · rw [if_pos hs] at h
      cases h
    · rw [if_neg hs] at h
      cases hrem : alookup acc.remaining q0 with
      | none =>
        rw [hrem] at h
        cases h
      | some sig =>
        rw [hrem] at h
        rcases List.mem_cons.mp hmem with heq | htail
        · cases heq
          have h' : connect_outputs_go
              { signals := upsert acc.signals sn { sig with name := some sn }
                bd := { acc.bd with
                  registered_outputs := upsert acc.bd.registered_outputs q sn
                  output_signals :=
                    upsert acc.bd.output_signals q { sig with name := some sn } }
                remaining := acc.remaining.eraseP (fun p => p.1 == q) }
              rest = (acc', none) := h
          have hfresh : alookup acc.signals sn = none :=
            Option.not_isSome_iff_eq_none.mp hs
          have hins : alookup (upsert acc.signals sn { sig with name := some sn }) sn =
              some { sig with name := some sn } := by
            rw [upsert_fresh _ _ _ hfresh]
            exact alookup_append_single_self _ _ _ hfresh
          have hpres := co_go_signals_preserve rest
            { signals := upsert acc.signals sn { sig with name := some sn }
              bd := { acc.bd with
                registered_outputs := upsert acc.bd.registered_outputs q sn
                output_signals :=
                  upsert acc.bd.output_signals q { sig with name := some sn } }
              remaining := acc.remaining.eraseP (fun p => p.1 == q) }
            sn { sig with name := some sn } hins
          rw [h'] at hpres
          have h2 : alookup acc'.signals sn = some { sig with name := some sn } := hpres
          rw [h2]
          rfl
        · exact ih _ _ h q sn htail

/-- The first component of connect_outputs is the loop's final signal
map, error or not. -/
theorem connect_outputs_fst (sigs : List (String × AnySignal)) (bd : BlockData)
    (conns : List (String × String)) :
    (connect_outputs sigs bd conns).1 =
      (connect_outputs_go ⟨sigs, bd, bd.output_signals⟩ conns).1.signals := by
  unfold connect_outputs
  cases connect_outputs_go ⟨sigs, bd, bd.output_signals⟩ conns with
  | mk acc e =>
    cases e with
    | some e' => rfl
    | none =>
      show (if acc.remaining.isEmpty then
            ((acc.signals, Except.ok acc.bd) :
              List (String × AnySignal) × Except ControlSystemError BlockData)
          else (acc.signals, .error
            (.UnconnectedPorts (acc.remaining.map (fun x => x.1)) acc.bd.spec.name))).1 =
        acc.signals
      split <;> rfl

/-- Full success decomposition of add_block, including the new builder. -/
theorem add_block_ok_full (b : ControlSystemBuilder) (spec : BlockSpec)
    (ic oc : List (String × String)) (b' : ControlSystemBuilder)
    (h : add_block b spec ic oc = (b', .ok ())) :
    ∃ bd1 sig₂ bd₂,
      ¬ (alookup b.blocks spec.name).isSome = true ∧
      connect_inputs (mk_block_data spec b.next_cell) ic = .ok bd1 ∧
      connect_outputs b.signals bd1 oc = (sig₂, .ok bd₂) ∧
      b' = { b with signals := sig₂
                    blocks := b.blocks ++ [(spec.name, bd₂)]
                    next_cell := b.next_cell + spec.outputs.length } := by
  obtain ⟨hdup, bd1, sig₂, bd₂, hci, hco⟩ :=
    add_block_ok_parts b spec ic oc (by rw [h])
  refine ⟨bd1, sig₂, bd₂, hdup, hci, hco, ?_⟩
  have hfull : add_block b spec ic oc =
      ({ b with signals := sig₂
                blocks := b.blocks ++ [(spec.name, bd₂)]
                next_cell := b.next_cell + spec.outputs.length }, .ok ()) := by
    simp only [add_block]
    rw [if_neg hdup]
    simp only [hci, hco]
  rw [h] at hfull
  exact congrArg Prod.fst hfull

/-- A successful add_block registers each output connection's signal name
in the resulting builder's signal map. -/
theorem add_block_ok_registers_signal (b : ControlSystemBuilder)
    (spec : BlockSpec) (ic oc : List (String × String))
    (b' : ControlSystemBuilder) (p s : String)
    (h : add_block b spec ic oc = (b', .ok ())) (hp : (p, s) ∈ oc) :
    ∃ cell, alookup b'.signals s = some cell := by
  obtain ⟨bd1, sig₂, bd₂, _, _, hco, hb'⟩ := add_block_ok_full b spec ic oc b' h
  obtain ⟨accO, hgo, _, hsig, _⟩ := connect_outputs_ok_parts _ _ _ _ _ hco
  have := co_go_conn_signal oc _ _ hgo p s hp
  rw [hsig] at this
  obtain ⟨cell, hcell⟩ := Option.isSome_iff_exists.mp this
  exact ⟨cell, by rw [hb']; exact hcell⟩

/-- The full result of add_block when the output phase fails: the builder
keeps its block map but takes the partially updated signal map. -/
theorem add_block_output_error_full (b : ControlSystemBuilder) (spec : BlockSpec)
    (ic oc : List (String × String)) (bd1 : BlockData)
    (sig' : List (String × AnySignal)) (e : ControlSystemError)
    (hdup : ¬ (alookup b.blocks spec.name).isSome = true)
    (hci : connect_inputs (mk_block_data spec b.next_cell) ic = .ok bd1)
    (hco : connect_outputs b.signals bd1 oc = (sig', .error e)) :
    add_block b spec ic oc =
      ({ b with signals := sig'
                next_cell := b.next_cell + spec.outputs.length }, .error e) := by
  simp only [add_block]
  rw [if_neg hdup]
  simp only [hci, hco]

/-- Core conflict lemma: an add_block call that reaches an output
connection whose signal name is already registered fails with
MultipleProducers naming that port, signal and block; the existing entry
for that signal and the registered blocks are untouched. -/
theorem add_block_conflict (b : ControlSystemBuilder) (spec2 : BlockSpec)
    (ic2 : List (String × String)) (pre rest : List (String × String))
    (p2 s : String) (cell : AnySignal) (bd1 : BlockData) (accP : OutAcc)
    (hdup : ¬ (alookup b.blocks spec2.name).isSome = true)
    (hci : connect_inputs (mk_block_data spec2 b.next_cell) ic2 = .ok bd1)
    (hpre : connect_outputs_go ⟨b.signals, bd1, bd1.output_signals⟩ pre = (accP, none))
    (hs : alookup b.signals s = some cell) :
    (add_block b spec2 ic2 (pre ++ (p2, s) :: rest)).2 =
      .error (.MultipleProducers p2 s spec2.name) ∧
    alookup (add_block b spec2 ic2 (pre ++ (p2, s) :: rest)).1.signals s = some cell ∧
    (add_block b spec2 ic2 (pre ++ (p2, s) :: rest)).1.blocks = b.blocks := by
  have hsP : alookup accP.signals s = some cell := by
    have := co_go_signals_preserve pre ⟨b.signals, bd1, bd1.output_signals⟩ s cell hs
    rw [hpre] at this
    exact this
  have hsPsome : (alookup accP.signals s).isSome = true := by
    rw [hsP]; rfl
  have hspec1 : bd1.spec = spec2 := by
    have := (ci_go_preserves ic2 _ _ _ hci).1
    rw [this]
    rfl
  have hspecP : accP.bd.spec = bd1.spec := by
    have := co_go_spec_preserved pre ⟨b.signals, bd1, bd1.output_signals⟩
    rw [hpre] at this
    exact this
  have hgo : connect_outputs_go ⟨b.signals, bd1, bd1.output_signals⟩
      (pre ++ (p2, s) :: rest) =
      (accP, some (.MultipleProducers p2 s spec2.name)) := by
    rw [co_go_append pre _ _, hpre]
    show connect_outputs_go accP ((p2, s) :: rest) = _
    simp only [connect_outputs_go]
    rw [if_pos hsPsome, hspecP, hspec1]
  have hco : connect_outputs b.signals bd1 (pre ++ (p2, s) :: rest) =
      (accP.signals, .error (.MultipleProducers p2 s spec2.name)) := by
    unfold connect_outputs
    rw [hgo]
  have hfull := add_block_output_error_full b spec2 ic2 _ bd1 accP.signals
    (.MultipleProducers p2 s spec2.name) hdup hci hco
  rw [hfull]
  exact ⟨rfl, hsP, rfl⟩

/-- C8: once a first add_block has wired an output port p1 of one block to
signal s, a second add_block of a differently-named block that wires an
output port p2 to the same s (its inputs valid, the connections before p2
processed without error) fails with MultipleProducers naming p2, s and the
second block; the signal cell registered under s and the set of registered
blocks are exactly as the first call left them. -/
theorem c8_second_producer_rejected (b0 b1 : ControlSystemBuilder)
    (spec1 spec2 : BlockSpec) (ic1 oc1 ic2 : List (String × String))
    (pre rest : List (String × String)) (p1 p2 s : String)
    (bd1 : BlockData) (accP : OutAcc)
    (h1 : add_block b0 spec1 ic1 oc1 = (b1, .ok ())) (hp1 : (p1, s) ∈ oc1)
    (hdup : ¬ (alookup b1.blocks spec2.name).isSome = true)
    (hci : connect_inputs (mk_block_data spec2 b1.next_cell) ic2 = .ok bd1)
    (hpre : connect_outputs_go ⟨b1.signals, bd1, bd1.output_signals⟩ pre = (accP, none)) :
    (add_block b1 spec2 ic2 (pre ++ (p2, s) :: rest)).2 =
      .error (.MultipleProducers p2 s spec2.name) ∧
    alookup (add_block b1 spec2 ic2 (pre ++ (p2, s) :: rest)).1.signals s =
      alookup b1.signals s ∧
    (add_block b1 spec2 ic2 (pre ++ (p2, s) :: rest)).1.blocks = b1.blocks := by
  obtain ⟨cell, hcell⟩ :=
    add_block_ok_registers_signal b0 spec1 ic1 oc1 b1 p1 s h1 hp1
  obtain ⟨herr, hsig, hblocks⟩ :=
    add_block_conflict b1 spec2 ic2 pre rest p2 s cell bd1 accP hdup hci hpre hcell
  exact ⟨herr, by rw [hsig, hcell], hblocks⟩

/-- Witness for C8: block A produces signal s with port y; registering A2
with its output z also on s fails with MultipleProducers (z, s, A2), and
A's cell under s and the block map are untouched. -/
theorem c8_witness :
    (add_block ControlSystemBuilder.empty blockSrc [] [("y", "s")] =
        (builderOneSrc, .ok ()) ∧
      ("y", "s") ∈ [("y", "s")] ∧
      ¬ (alookup builderOneSrc.blocks blockSrc2.name).isSome = true ∧
      connect_inputs (mk_block_data blockSrc2 builderOneSrc.next_cell) [] = .ok bdA2 ∧
      connect_outputs_go ⟨builderOneSrc.signals, bdA2, bdA2.output_signals⟩ [] =
        (accA2, none)) ∧
    ((add_block builderOneSrc blockSrc2 [] ([] ++ ("z", "s") :: [])).2 =
        .error (.MultipleProducers "z" "s" blockSrc2.name) ∧
      alookup (add_block builderOneSrc blockSrc2 [] ([] ++ ("z", "s") :: [])).1.signals "s" =
        alookup builderOneSrc.signals "s" ∧
      (add_block builderOneSrc blockSrc2 [] ([] ++ ("z", "s") :: [])).1.blocks =
        builderOneSrc.blocks) := by
  have hdup : ¬ (alookup builderOneSrc.blocks blockSrc2.name).isSome = true := by
    intro hh
    rw [show (alookup builderOneSrc.blocks blockSrc2.name).isSome = false from rfl] at hh
    cases hh
  refine ⟨⟨rfl, List.mem_singleton.mpr rfl, hdup, rfl, rfl⟩, ?_⟩
  exact c8_second_producer_rejected ControlSystemBuilder.empty builderOneSrc
    blockSrc blockSrc2 [] [("y", "s")] [] [] [] "y" "z" "s" bdA2 accA2
    rfl (List.mem_singleton.mpr rfl) hdup rfl rfl

/-- C10: add_block is not atomic on failure. If the call registers its
first output connection (p, sn) — the signal name sn was fresh and the
port exists — and then fails with any error, the block is not registered
(the block map is unchanged) yet sn remains in the builder's signal map;
consequently, although no registered block produces sn, a later add_block
that wires any output port to sn fails with MultipleProducers. -/
theorem c10_add_block_not_atomic (b : ControlSystemBuilder) (spec : BlockSpec)
    (ic : List (String × String)) (p sn : String)
    (rest : List (String × String)) (e : ControlSystemError) (bd1 : BlockData)
    (hdup : ¬ (alookup b.blocks spec.name).isSome = true)
    (hci : connect_inputs (mk_block_data spec b.next_cell) ic = .ok bd1)
    (hfresh : alookup b.signals sn = none)
    (hport : (alookup bd1.output_signals p).isSome = true)
    (herr : (add_block b spec ic ((p, sn) :: rest)).2 = .error e)
    (hnoprod : ∀ nb ∈ b.blocks, ∀ pr ∈ nb.2.registered_outputs, pr.2 ≠ sn) :
    (add_block b spec ic ((p, sn) :: rest)).1.blocks = b.blocks ∧
    (alookup (add_block b spec ic ((p, sn) :: rest)).1.signals sn).isSome = true ∧
    (∀ nb ∈ (add_block b spec ic ((p, sn) :: rest)).1.blocks,
      ∀ pr ∈ nb.2.registered_outputs, pr.2 ≠ sn) ∧
    (∀ (spec3 : BlockSpec) (ic3 pre3 rest3 : List (String × String))
      (q : String) (bd3 : BlockData) (accP : OutAcc),
      ¬ (alookup (add_block b spec ic ((p, sn) :: rest)).1.blocks spec3.name).isSome = true →
      connect_inputs (mk_block_data spec3 (add_block b spec ic ((p, sn) :: rest)).1.next_cell)
        ic3 = .ok bd3 →
      connect_outputs_go ⟨(add_block b spec ic ((p, sn) :: rest)).1.signals, bd3,
        bd3.output_signals⟩ pre3 = (accP, none) →
      (add_block (add_block b spec ic ((p, sn) :: rest)).1 spec3 ic3
          (pre3 ++ (q, sn) :: rest3)).2 =
        .error (.MultipleProducers q sn spec3.name)) := by
  obtain ⟨sig, hsig⟩ := Option.isSome_iff_exists.mp hport
  have hfreshb : ¬ (alookup b.signals sn).isSome = true := by
    rw [hfresh]
    intro hh
    cases hh
  -- the output phase must be the failing one
  cases hco : connect_outputs b.signals bd1 ((p, sn) :: rest) with
  | mk sigF r =>
    cases r with
    | ok bd₂ =>
      exfalso
      have : (add_block b spec ic ((p, sn) :: rest)).2 = .ok () := by
        simp only [add_block]
        rw [if_neg hdup]
        simp only [hci, hco]
      rw [this] at herr
      cases herr
    | error e' =>
      have hfull := add_block_output_error_full b spec ic _ bd1 sigF e' hdup hci hco
      -- the signal map after the failed call holds sn
      have hstep : connect_outputs_go ⟨b.signals, bd1, bd1.output_signals⟩
          ((p, sn) :: rest) = connect_outputs_go
          { signals := upsert b.signals sn { sig with name := some sn }
            bd := { bd1 with
              registered_outputs := upsert bd1.registered_outputs p sn
              output_signals := upsert bd1.output_signals p { sig with name := some sn } }
            remaining := bd1.output_signals.eraseP (fun x => x.1 == p) }
          rest := by
        simp only [connect_outputs_go]
        rw [if_neg hfreshb, hsig]
      have hins : alookup (upsert b.signals sn { sig with name := some sn }) sn =
          some { sig with name := some sn } := by
        rw [upsert_fresh _ _ _ hfresh]
        exact alookup_append_single_self _ _ _ hfresh
      have hmono := co_go_signals_mono rest
        { signals := upsert b.signals sn { sig with name := some sn }
          bd := { bd1 with
            registered_outputs := upsert bd1.registered_outputs p sn
            output_signals := upsert bd1.output_signals p { sig with name := some sn } }
          remaining := bd1.output_signals.eraseP (fun x => x.1 == p) }
        sn (by rw [hins]; rfl)
      have hsnF : (alookup sigF sn).isSome = true := by
        have hfst := connect_outputs_fst b.signals bd1 ((p, sn) :: rest)
        rw [hco, hstep] at hfst
        have hfst' : sigF = (connect_outputs_go
            { signals := upsert b.signals sn { sig with name := some sn }
              bd := { bd1 with
                registered_outputs := upsert bd1.registered_outputs p sn
                output_signals := upsert bd1.output_signals p { sig with name := some sn } }
              remaining := bd1.output_signals.eraseP (fun x => x.1 == p) }
            rest).1.signals := hfst
        rw [hfst']
        exact hmono
      rw [hfull]
      refine ⟨rfl, hsnF, ?_, ?_⟩
      · exact hnoprod
      · intro spec3 ic3 pre3 rest3 q bd3 accP hdup3 hci3 hpre3
        obtain ⟨cell, hcell⟩ := Option.isSome_iff_exists.mp hsnF
        have hconf := add_block_conflict
          ({ b with signals := sigF
                    next_cell := b.next_cell + spec.outputs.length })
          spec3 ic3 pre3 rest3 q sn cell bd3 accP hdup3 hci3 hpre3 hcell
        exact hconf.1

/-- Witness for C10: registering blockTwoOut with connections
(y1, s1), (bogus, s2) fails with UnknownPort after s1 was created; the
block map stays empty, s1 stays registered, and a later registration of
blockSrc wiring y to s1 fails with MultipleProducers. -/
theorem c10_witness :
    ((¬ (alookup ControlSystemBuilder.empty.blocks blockTwoOut.name).isSome = true) ∧
      connect_inputs (mk_block_data blockTwoOut ControlSystemBuilder.empty.next_cell) [] =
        .ok bdT ∧
      alookup ControlSystemBuilder.empty.signals "s1" = none ∧
      (alookup bdT.output_signals "y1").isSome = true ∧
      (add_block ControlSystemBuilder.empty blockTwoOut []
          (("y1", "s1") :: [("bogus", "s2")])).2 =
        .error (.UnknownPort "bogus" blockTwoOut.name) ∧
      (∀ nb ∈ ControlSystemBuilder.empty.blocks,
        ∀ pr ∈ nb.2.registered_outputs, pr.2 ≠ "s1")) ∧
    ((add_block ControlSystemBuilder.empty blockTwoOut []
        (("y1", "s1") :: [("bogus", "s2")])).1.blocks =
        ControlSystemBuilder.empty.blocks ∧
      (alookup (add_block ControlSystemBuilder.empty blockTwoOut []
        (("y1", "s1") :: [("bogus", "s2")])).1.signals "s1").isSome = true ∧
      (add_block builderLeaky blockSrc [] ([] ++ ("y", "s1") :: [])).2 =
        .error (.MultipleProducers "y" "s1" blockSrc.name)) := by
  have hdup : ¬ (alookup ControlSystemBuilder.empty.blocks blockTwoOut.name).isSome = true := by
    intro hh
    cases hh
  have hnoprod : ∀ nb ∈ ControlSystemBuilder.empty.blocks,
      ∀ pr ∈ nb.2.registered_outputs, pr.2 ≠ "s1" := by
    intro nb hnb
    cases hnb
  have hmain := c10_add_block_not_atomic ControlSystemBuilder.empty blockTwoOut
    [] "y1" "s1" [("bogus", "s2")] (.UnknownPort "bogus" blockTwoOut.name) bdT
    hdup rfl rfl rfl rfl hnoprod
  have hdup3 : ¬ (alookup (add_block ControlSystemBuilder.empty blockTwoOut []
      (("y1", "s1") :: [("bogus", "s2")])).1.blocks blockSrc.name).isSome = true := by
    intro hh
    rw [show (alookup (add_block ControlSystemBuilder.empty blockTwoOut []
      (("y1", "s1") :: [("bogus", "s2")])).1.blocks blockSrc.name).isSome = false from rfl] at hh
    cases hh
  refine ⟨⟨hdup, rfl, rfl, rfl, rfl, hnoprod⟩, hmain.1, hmain.2.1, ?_⟩
  exact hmain.2.2.2 blockSrc [] [] [] "y" bdA1 accA1 hdup3 rfl rfl

/-! Topological-sort lemmas. -/

/-- A successful sort returns a permutation of the node set in which
every edge (inside the node set) goes from an earlier to a later
position. -/
theorem topo_go_sound (E : List GEdge) :
    ∀ (fuel : Nat) (S L : List String), S.length ≤ fuel →
      toposort_go E fuel S = .ok L →
      L.Perm S ∧
      ∀ e ∈ E, e.1 ∈ S → e.2.1 ∈ S → L.indexOf e.1 < L.indexOf e.2.1 := by
  intro fuel
  induction fuel with
  | zero =>
    intro S L hlen h
    have hS : S = [] := List.length_eq_zero.mp (Nat.le_zero.mp hlen)
    subst hS
    simp only [toposort_go, List.isEmpty_nil, if_pos] at h
    cases h
    exact ⟨List.Perm.refl _, fun e _ he => absurd he (List.not_mem_nil _)⟩
  | succ fuel ih =>
    intro S L hlen h
    simp only [toposort_go] at h
    cases hfind : S.find? (fun v => !has_incoming E S v) with
    | some v =>
      rw [hfind] at h
      have hvS : v ∈ S := List.mem_of_find?_eq_some hfind
      have hvp := List.find?_some (p := fun v => !has_incoming E S v) hfind
      have h2 : (match toposort_go E fuel (S.erase v) with
          | Except.ok L => Except.ok (v :: L)
          | Except.error w => (Except.error w : Except String (List String))) =
          Except.ok L := h
      cases hrec : toposort_go E fuel (S.erase v) with
      | error w =>
        rw [hrec] at h2
        cases h2
      | ok L' =>
        rw [hrec] at h2
        cases h2
        have hlen' : (S.erase v).length ≤ fuel := by
          rw [List.length_erase_of_mem hvS]
          omega
        obtain ⟨hperm, horder⟩ := ih (S.erase v) L' hlen' hrec
        constructor
        · exact (hperm.cons v).trans (List.perm_cons_erase hvS).symm
        · intro e heE hsrc hdst
          by_cases hdv : e.2.1 = v
          · exfalso
            have hvp' : (!has_incoming E S v) = true := hvp
            have : has_incoming E S v = true := by
              rw [has_incoming, List.any_eq_true]
              refine ⟨e, heE, ?_⟩
              rw [Bool.and_eq_true, beq_iff_eq, hdv]
              exact ⟨rfl, by simpa using hsrc⟩
            rw [this] at hvp'
            cases hvp'
          · rw [List.indexOf_cons_ne L' (fun hh => hdv hh.symm)]
            by_cases hsv : e.1 = v
            · rw [hsv, List.indexOf_cons_self]
              exact Nat.succ_pos _
            · rw [List.indexOf_cons_ne L' (fun hh => hsv hh.symm)]
              have h1 : e.1 ∈ S.erase v := List.mem_erase_of_ne hsv |>.mpr hsrc
              have h2 : e.2.1 ∈ S.erase v := List.mem_erase_of_ne hdv |>.mpr hdst
              exact Nat.succ_lt_succ (horder e heE h1 h2)
    | none =>
      rw [hfind] at h
      by_cases hS : S.isEmpty
      · rw [if_pos hS] at h
        cases h
        rw [List.isEmpty_iff] at hS
        subst hS
        exact ⟨List.Perm.refl _, fun e _ he => absurd he (List.not_mem_nil _)⟩
      · rw [if_neg hS] at h
        cases h

/-- When the sort is stuck, every remaining node has an incoming edge
from the remaining set. -/
theorem stuck_has_incoming (E : List GEdge) (S : List String)
    (hfind : S.find? (fun v => !has_incoming E S v) = none) :
    ∀ v ∈ S, has_incoming E S v = true := by
  intro v hv
  have h := List.find?_eq_none.mp hfind v hv
  cases hX : has_incoming E S v with
  | true => rfl
  | false =>
    exfalso
    apply h
    show (!has_incoming E S v) = true
    rw [hX]
    rfl

/-- The chosen predecessor of a node with an incoming edge lies in the
set and really is a predecessor. -/
theorem graph_pred_spec (E : List GEdge) (S : List String) (v : String)
    (h : has_incoming E S v = true) :
    graph_pred E S v ∈ S ∧ is_edge E (graph_pred E S v) v := by
  obtain ⟨e, heE, hcond⟩ := List.any_eq_true.mp h
  have hcond' : (e.2.1 == v && S.contains e.1) = true := hcond
  rw [Bool.and_eq_true, beq_iff_eq] at hcond'
  obtain ⟨hdst, hsrc⟩ := hcond'
  have hsrcS : e.1 ∈ S := by simpa using hsrc
  rw [graph_pred]
  cases hres : S.find? (fun u => E.any (fun e' => e'.1 == u && e'.2.1 == v)) with
  | none =>
    exfalso
    apply List.find?_eq_none.mp hres e.1 hsrcS
    show E.any (fun e' => e'.1 == e.1 && e'.2.1 == v) = true
    rw [List.any_eq_true]
    refine ⟨e, heE, ?_⟩
    rw [Bool.and_eq_true, beq_iff_eq, beq_iff_eq]
    exact ⟨rfl, hdst⟩
  | some u =>
    have huS : u ∈ S := List.mem_of_find?_eq_some hres
    have hupred0 := List.find?_some
      (p := fun u => E.any (fun e' => e'.1 == u && e'.2.1 == v)) hres
    have hupred : E.any (fun e' => e'.1 == u && e'.2.1 == v) = true := hupred0
    refine ⟨huS, ?_⟩
    obtain ⟨⟨a, b, c⟩, he'E, hc⟩ := List.any_eq_true.mp hupred
    have hc' : (a == u && b == v) = true := hc
    rw [Bool.and_eq_true, beq_iff_eq, beq_iff_eq] at hc'
    obtain ⟨ha, hb⟩ := hc'
    subst ha
    subst hb
    exact ⟨c, he'E⟩

/-- The predecessor walk stays inside the stuck set. -/
theorem pred_iter_mem (E : List GEdge) (S : List String)
    (hstuck : ∀ v ∈ S, has_incoming E S v = true) :
    ∀ (n : Nat) (v : String), v ∈ S → pred_iter E S n v ∈ S := by
  intro n
  induction n with
  | zero => intro v hv; exact hv
  | succ n ihn =>
    intro v hv
    show pred_iter E S n (graph_pred E S v) ∈ S
    exact ihn _ (graph_pred_spec E S v (hstuck v hv)).1

/-- The walk can be unfolded at its far end. -/
theorem pred_iter_succ (E : List GEdge) (S : List String) :
    ∀ (n : Nat) (v : String),
      pred_iter E S (n + 1) v = graph_pred E S (pred_iter E S n v) := by
  intro n
  induction n with
  | zero => intro v; rfl
  | succ n ihn =>
    intro v
    show pred_iter E S (n + 1) (graph_pred E S v) = _
    rw [ihn]
    rfl

/-- Once the walk repeats (x i = x j, i < j), every later point of the
walk equals some x m with i ≤ m < j. -/
theorem pred_iter_repeat (E : List GEdge) (S : List String) (v₀ : String)
    (i j : Nat) (hij : i < j)
    (heq : pred_iter E S i v₀ = pred_iter E S j v₀) :
    ∀ k, i ≤ k → ∃ m, i ≤ m ∧ m < j ∧
      pred_iter E S k v₀ = pred_iter E S m v₀ := by
  intro k
  induction k with
  | zero =>
    intro hik
    have : i = 0 := Nat.le_zero.mp hik
    subst this
    exact ⟨0, Nat.le_refl 0, hij, rfl⟩
  | succ k ihk =>
    intro hik
    by_cases hik' : i ≤ k
    · obtain ⟨m, him, hmj, hkm⟩ := ihk hik'
      by_cases hm1 : m + 1 < j
      · refine ⟨m + 1, by omega, hm1, ?_⟩
        rw [pred_iter_succ, hkm, ← pred_iter_succ]
      · have hmj' : m + 1 = j := by omega
        refine ⟨i, Nat.le_refl i, hij, ?_⟩
        rw [pred_iter_succ, hkm, ← pred_iter_succ, hmj', ← heq]
    · have : k + 1 = i := by omega
      rw [this]
      exact ⟨i, Nat.le_refl i, hij, rfl⟩

/-- Chains of consecutive walk values: from g s through
g (s+1), ..., g (s+n) and then one more edge to z. -/
theorem chain_pred_desc (E : List GEdge) (g : Nat → String) (z : String) :
    ∀ (n s : Nat), (∀ t, s ≤ t → t < s + n → is_edge E (g t) (g (t + 1))) →
      is_edge E (g (s + n)) z →
      List.Chain (is_edge E) (g s) ((List.range' (s + 1) n).map g ++ [z]) := by
  intro n
  induction n with
  | zero =>
    intro s _ hlast
    exact List.Chain.cons hlast List.Chain.nil
  | succ n ihn =>
    intro s hs hlast
    rw [List.range'_succ, List.map_cons, List.cons_append]
    refine List.Chain.cons (hs s (Nat.le_refl s) (by omega)) ?_
    refine ihn (s + 1) (fun t ht1 ht2 => hs t (by omega) (by omega)) ?_
    have hidx : s + 1 + n = s + (n + 1) := by omega
    rw [hidx]
    exact hlast

/-- A stuck nonempty node set contains a cycle, and the reported node
cycle_node lies on one whose nodes all belong to the set. -/
theorem cycle_of_stuck (E : List GEdge) (S : List String) (hne : S ≠ [])
    (hstuck : ∀ v ∈ S, has_incoming E S v = true) :
    ∃ c, is_cycle E c ∧ cycle_node E S ∈ c ∧ ∀ x ∈ c, x ∈ S := by
  have hv0S : S.headD "" ∈ S := by
    cases S with
    | nil => exact absurd rfl hne
    | cons a t => exact List.mem_cons_self a t
  have hmem : ∀ k, pred_iter E S k (S.headD "") ∈ S :=
    fun k => pred_iter_mem E S hstuck k _ hv0S
  have hedge_all : ∀ k, is_edge E
      (pred_iter E S (k + 1) (S.headD "")) (pred_iter E S k (S.headD "")) := by
    intro k
    rw [pred_iter_succ]
    exact (graph_pred_spec E S _ (hstuck _ (hmem k))).2
  -- pigeonhole over the first |S| + 1 walk values
  obtain ⟨a, _, b, _, hab, habeq⟩ :=
    Finset.exists_ne_map_eq_of_card_lt_of_maps_to
      (s := (Finset.univ : Finset (Fin (S.length + 1))))
      (t := S.toFinset)
      (by
        rw [Finset.card_univ, Fintype.card_fin]
        exact Nat.lt_succ_of_le (List.toFinset_card_le S))
      (f := fun k => pred_iter E S k.val (S.headD ""))
      (fun a _ => List.mem_toFinset.mpr (hmem a.val))
  -- order the repeat indices
  obtain ⟨i, j, hij, hjn, heq⟩ :
      ∃ i j, i < j ∧ j ≤ S.length ∧
        pred_iter E S i (S.headD "") = pred_iter E S j (S.headD "") := by
    rcases Nat.lt_or_ge a.val b.val with h | h
    · exact ⟨a.val, b.val, h, Nat.lt_succ_iff.mp b.isLt, habeq⟩
    · have : b.val < a.val := by
        rcases Nat.lt_or_ge b.val a.val with h' | h'
        · exact h'
        · exact absurd (Fin.val_injective (Nat.le_antisymm h' h)) hab
      exact ⟨b.val, a.val, this, Nat.lt_succ_iff.mp a.isLt, habeq.symm⟩
  -- the descending cycle list
  refine ⟨(fun t => pred_iter E S (j - t) (S.headD "")) 0 ::
    (List.range' 1 (j - i - 1)).map
      (fun t => pred_iter E S (j - t) (S.headD "")), ?_, ?_, ?_⟩
  · refine chain_pred_desc E (fun t => pred_iter E S (j - t) (S.headD ""))
      _ (j - i - 1) 0 ?_ ?_
    · intro t _ ht2
      have hidx : j - t - 1 + 1 = j - t := by omega
      have := hedge_all (j - t - 1)
      rw [hidx] at this
      have hidx2 : j - (t + 1) = j - t - 1 := by omega
      show is_edge E (pred_iter E S (j - t) (S.headD ""))
        (pred_iter E S (j - (t + 1)) (S.headD ""))
      rw [hidx2]
      exact this
    · have hidx : j - (0 + (j - i - 1)) = i + 1 := by omega
      show is_edge E (pred_iter E S (j - (0 + (j - i - 1))) (S.headD ""))
        (pred_iter E S (j - 0) (S.headD ""))
      rw [hidx]
      have := hedge_all i
      have hidx2 : (j - 0) = j := by omega
      rw [hidx2, ← heq]
      exact this
  · -- cycle_node E S = x S.length equals some x m with i ≤ m < j
    obtain ⟨m, him, hmj, hnm⟩ :=
      pred_iter_repeat E S (S.headD "") i j hij heq S.length (by omega)
    show cycle_node E S ∈ _
    rw [cycle_node, hnm]
    by_cases hmi : m = i
    · subst hmi
      rw [heq]
      exact List.mem_cons_self _ _
    · have h1m : 1 ≤ j - m := by omega
      have hlt : j - m < 1 + (j - i - 1) := by omega
      apply List.mem_cons_of_mem
      rw [List.mem_map]
      refine ⟨j - m, ?_, ?_⟩
      · rw [List.mem_range'_1]
        exact ⟨h1m, hlt⟩
      · have : j - (j - m) = m := by omega
        rw [this]
  · intro x hx
    rcases List.mem_cons.mp hx with h | h
    · rw [h]
      exact hmem _
    · obtain ⟨t, _, ht⟩ := List.mem_map.mp h
      rw [← ht]
      exact hmem _

/-- A failing sort reports a node lying on a cycle whose nodes are all in
the node set. -/
theorem topo_go_error (E : List GEdge) :
    ∀ (fuel : Nat) (S : List String) (w : String), S.length ≤ fuel →
      toposort_go E fuel S = .error w →
      ∃ c, is_cycle E c ∧ w ∈ c ∧ ∀ x ∈ c, x ∈ S := by
  intro fuel
  induction fuel with
  | zero =>
    intro S w hlen h
    have hS : S = [] := List.length_eq_zero.mp (Nat.le_zero.mp hlen)
    subst hS
    simp only [toposort_go, List.isEmpty_nil, if_pos] at h
    cases h
  | succ fuel ih =>
    intro S w hlen h
    simp only [toposort_go] at h
    cases hfind : S.find? (fun v => !has_incoming E S v) with
    | some v =>
      rw [hfind] at h
      have hvS : v ∈ S := List.mem_of_find?_eq_some hfind
      have h2 : (match toposort_go E fuel (S.erase v) with
          | Except.ok L => Except.ok (v :: L)
          | Except.error w => (Except.error w : Except String (List String))) =
          Except.error w := h
      cases hrec : toposort_go E fuel (S.erase v) with
      | ok L' =>
        rw [hrec] at h2
        cases h2
      | error w' =>
        rw [hrec] at h2
        cases h2
        have hlen' : (S.erase v).length ≤ fuel := by
          rw [List.length_erase_of_mem hvS]
          omega
        obtain ⟨c, hc, hw, hsub⟩ := ih (S.erase v) w hlen' hrec
        exact ⟨c, hc, hw, fun x hx => (List.erase_subset v S) (hsub x hx)⟩
    | none =>
      rw [hfind] at h
      by_cases hS : S.isEmpty
      · rw [if_pos hS] at h
        cases h
      · rw [if_neg hS] at h
        cases h
        have hne : S ≠ [] := fun hh => hS (by rw [hh]; rfl)
        exact cycle_of_stuck E S hne (stuck_has_incoming E S hfind)

/-! The dependency graph: membership characterization and invariance
under the input-binding pass. -/

theorem mem_build_graph (blocks : List (String × BlockData)) (cyc : Bool)
    (x : GEdge) :
    x ∈ build_graph blocks cyc ↔
      ∃ pb ∈ blocks, ∃ po ∈ pb.2.registered_outputs, ∃ cb ∈ blocks,
        (alookup cb.2.registered_inputs po.2).isSome = true ∧
        (cb.2.spec.delay == 0 || cyc) = true ∧
        x = (pb.1, cb.1, po.2) := by
  rw [build_graph]
  simp only [List.mem_flatMap, List.mem_filterMap]
  constructor
  · rintro ⟨pb, hpb, po, hpo, cb, hcb, hx⟩
    by_cases hcond : (alookup cb.2.registered_inputs po.2).isSome &&
        (cb.2.spec.delay == 0 || cyc)
    · rw [if_pos hcond] at hx
      cases hx
      rw [Bool.and_eq_true] at hcond
      exact ⟨pb, hpb, po, hpo, cb, hcb, hcond.1, hcond.2, rfl⟩
    · rw [if_neg hcond] at hx
      cases hx
  · rintro ⟨pb, hpb, po, hpo, cb, hcb, h1, h2, hx⟩
    refine ⟨pb, hpb, po, hpo, cb, hcb, ?_⟩
    rw [if_pos (by rw [Bool.and_eq_true]; exact ⟨h1, h2⟩), hx]

/-- Every edge of the filtered graph is an edge of the full diagnostic
graph. -/
theorem is_edge_mono (blocks : List (String × BlockData)) (a b : String)
    (h : is_edge (build_graph blocks false) a b) :
    is_edge (build_graph blocks true) a b := by
  obtain ⟨l, hl⟩ := h
  rw [mem_build_graph] at hl
  obtain ⟨pb, hpb, po, hpo, cb, hcb, h1, _, hx⟩ := hl
  refine ⟨l, ?_⟩
  rw [mem_build_graph]
  exact ⟨pb, hpb, po, hpo, cb, hcb, h1, by rw [Bool.or_true], hx⟩

/-- Every node of a cycle receives an edge along the cycle. -/
theorem cycle_node_has_incoming_edge (E : List GEdge) (c : List String)
    (hc : is_cycle E c) : ∀ x ∈ c, ∃ u ∈ c, is_edge E u x := by
  cases c with
  | nil => cases hc
  | cons a rest =>
    have hchain : List.Chain (is_edge E) a (rest ++ [a]) := hc
    -- every element of l is the target of an edge from a or an earlier element
    have haux : ∀ (l : List String) (s : String), List.Chain (is_edge E) s l →
        ∀ x ∈ l, ∃ u, (u = s ∨ u ∈ l) ∧ is_edge E u x := by
      intro l
      induction l with
      | nil =>
        intro s _ x hx
        cases hx
      | cons bb t ihl =>
        intro s hch x hx
        rw [List.chain_cons] at hch
        rcases List.mem_cons.mp hx with rfl | hxt
        · exact ⟨s, Or.inl rfl, hch.1⟩
        · obtain ⟨u, hu, hedge⟩ := ihl bb hch.2 x hxt
          rcases hu with rfl | hut
          · exact ⟨u, Or.inr (List.mem_cons_self u t), hedge⟩
          · exact ⟨u, Or.inr (List.mem_cons_of_mem bb hut), hedge⟩
    intro x hx
    have hx' : x ∈ rest ++ [a] := by
      rcases List.mem_cons.mp hx with rfl | hxr
      · exact List.mem_append.mpr (Or.inr (List.mem_singleton.mpr rfl))
      · exact List.mem_append.mpr (Or.inl hxr)
    obtain ⟨u, hu, hedge⟩ := haux (rest ++ [a]) a hchain x hx'
    refine ⟨u, ?_, hedge⟩
    rcases hu with rfl | hul
    · exact List.mem_cons_self u rest
    · rcases List.mem_append.mp hul with h | h
      · exact List.mem_cons_of_mem a h
      · rw [List.mem_singleton.mp h]
        exact List.mem_cons_self a rest

theorem alookup_of_mem_nodup {α : Type} (m : List (String × α)) (k : String)
    (v : α) (hnd : (m.map Prod.fst).Nodup) (hmem : (k, v) ∈ m) :
    alookup m k = some v := by
  induction m with
  | nil => cases hmem
  | cons p t ih =>
    rw [List.map_cons, List.nodup_cons] at hnd
    rcases List.mem_cons.mp hmem with rfl | htail
    · rw [alookup_cons, if_pos rfl]
    · have hk : k ∈ t.map Prod.fst := List.mem_map.mpr ⟨(k, v), htail, rfl⟩
      have hne : p.1 ≠ k := fun hh => hnd.1 (hh ▸ hk)
      rw [alookup_cons, if_neg hne]
      exact ih hnd.2 htail

/-- Fields of a block other than its input slots survive the binding
pass of build. -/
theorem bi_go_preserves (conns : List (String × String)) :
    ∀ (sigs : List (String × AnySignal)) (bn : String) (bd bd' : BlockData),
      bind_inputs_go sigs bn bd conns = .ok bd' →
      bd'.spec = bd.spec ∧ bd'.registered_inputs = bd.registered_inputs ∧
        bd'.registered_outputs = bd.registered_outputs := by
  induction conns with
  | nil =>
    intro sigs bn bd bd' h
    cases h
    exact ⟨rfl, rfl, rfl⟩
  | cons c rest ih =>
    intro sigs bn bd bd' h
    obtain ⟨sg, inp⟩ := c
    simp only [bind_inputs_go] at h
    cases hlk : alookup sigs sg with
    | none =>
      rw [hlk] at h
      cases h
    | some sig =>
      rw [hlk] at h
      have h' : bind_inputs_go sigs bn
          { bd with input_signals := upsert bd.input_signals inp (some sig) }
          rest = .ok bd' := h
      exact ih sigs bn
        { bd with input_signals := upsert bd.input_signals inp (some sig) } bd' h'

/-- The relation between a registered block before and after the binding
pass: same name, same spec, same recorded wiring. -/
theorem bind_all_shape (blocks : List (String × BlockData)) :
    ∀ (sigs : List (String × AnySignal)) (blocks' : List (String × BlockData)),
      bind_all sigs blocks = .ok blocks' →
      List.Forall₂ (fun p q => p.1 = q.1 ∧ q.2.spec = p.2.spec ∧
        q.2.registered_inputs = p.2.registered_inputs ∧
        q.2.registered_outputs = p.2.registered_outputs) blocks blocks' := by
  induction blocks with
  | nil =>
    intro sigs blocks' h
    cases h
    exact List.Forall₂.nil
  | cons nb rest ih =>
    intro sigs blocks' h
    obtain ⟨n, bd⟩ := nb
    simp only [bind_all] at h
    cases hbi : bind_inputs sigs n bd with
    | error e =>
      rw [hbi] at h
      cases h
    | ok bd' =>
      rw [hbi] at h
      cases hba : bind_all sigs rest with
      | error e =>
        rw [hba] at h
        cases h
      | ok rest' =>
        rw [hba] at h
        cases h
        obtain ⟨h1, h2, h3⟩ := bi_go_preserves _ _ _ _ _ hbi
        exact List.Forall₂.cons ⟨rfl, h1, h2, h3⟩ (ih sigs rest' hba)

theorem flatMap_congr_mem {α β : Type} (l : List α) (f g : α → List β)
    (h : ∀ x ∈ l, f x = g x) : l.flatMap f = l.flatMap g := by
  induction l with
  | nil => rfl
  | cons a t ih =>
    rw [List.flatMap_cons, List.flatMap_cons, h a (List.mem_cons_self a t),
      ih (fun x hx => h x (List.mem_cons_of_mem a hx))]

/-- The binding pass leaves the dependency graph unchanged (it reads only
names, recorded wiring and delays). -/
theorem build_graph_congr (blocks blocks' : List (String × BlockData))
    (hrel : List.Forall₂ (fun p q => p.1 = q.1 ∧ q.2.spec = p.2.spec ∧
      q.2.registered_inputs = p.2.registered_inputs ∧
      q.2.registered_outputs = p.2.registered_outputs) blocks blocks')
    (cyc : Bool) :
    build_graph blocks' cyc = build_graph blocks cyc := by
  have inner_congr : ∀ (pn : String) (po : String × String),
      blocks'.filterMap (fun cb =>
        if (alookup cb.2.registered_inputs po.2).isSome &&
            (cb.2.spec.delay == 0 || cyc) then some (pn, cb.1, po.2) else none) =
      blocks.filterMap (fun cb =>
        if (alookup cb.2.registered_inputs po.2).isSome &&
            (cb.2.spec.delay == 0 || cyc) then some (pn, cb.1, po.2) else none) := by
    intro pn po
    induction hrel with
    | nil => rfl
    | cons hr hrest ihr =>
      rw [List.filterMap_cons, List.filterMap_cons]
      obtain ⟨hn, hs, hri, _⟩ := hr
      rw [hri, hs, hn, ihr]
  rw [build_graph, build_graph]
  suffices haux : ∀ (o o' : List (String × BlockData)),
      List.Forall₂ (fun p q => p.1 = q.1 ∧ q.2.spec = p.2.spec ∧
        q.2.registered_inputs = p.2.registered_inputs ∧
        q.2.registered_outputs = p.2.registered_outputs) o o' →
      o'.flatMap (fun pb => pb.2.registered_outputs.flatMap (fun po =>
        blocks'.filterMap (fun cb =>
          if (alookup cb.2.registered_inputs po.2).isSome &&
              (cb.2.spec.delay == 0 || cyc) then some (pb.1, cb.1, po.2) else none))) =
      o.flatMap (fun pb => pb.2.registered_outputs.flatMap (fun po =>
        blocks.filterMap (fun cb =>
          if (alookup cb.2.registered_inputs po.2).isSome &&
              (cb.2.spec.delay == 0 || cyc) then some (pb.1, cb.1, po.2) else none))) by
    exact haux blocks blocks' hrel
  intro o o' ho
  induction ho with
  | nil => rfl
  | cons hr hrest ihr =>
    rw [List.flatMap_cons, List.flatMap_cons]
    obtain ⟨hn, _, _, hro⟩ := hr
    rw [ihr, hro, hn]
    congr 1
    apply flatMap_congr_mem
    intro po _
    exact inner_congr _ po

/-- Names are preserved across the binding pass. -/
theorem bind_all_keys (blocks blocks' : List (String × BlockData))
    (hrel : List.Forall₂ (fun p q => p.1 = q.1 ∧ q.2.spec = p.2.spec ∧
      q.2.registered_inputs = p.2.registered_inputs ∧
      q.2.registered_outputs = p.2.registered_outputs) blocks blocks') :
    blocks'.map Prod.fst = blocks.map Prod.fst := by
  induction hrel with
  | nil => rfl
  | cons hr hrest ihr =>
    rw [List.map_cons, List.map_cons, ihr, hr.1]

theorem forall₂_mem_right {α : Type} (R : α → α → Prop) (l l' : List α)
    (h : List.Forall₂ R l l') : ∀ q ∈ l', ∃ p ∈ l, R p q := by
  induction h with
  | nil =>
    intro q hq
    cases hq
  | cons hr hrest ihr =>
    intro q hq
    rcases List.mem_cons.mp hq with rfl | htail
    · exact ⟨_, List.mem_cons_self _ _, hr⟩
    · obtain ⟨p, hp, hpq⟩ := ihr q htail
      exact ⟨p, List.mem_cons_of_mem _ hp, hpq⟩

/-- When every recorded input wiring resolves, the binding pass of build
succeeds. -/
theorem bind_inputs_ok_of_resolve (conns : List (String × String)) :
    ∀ (sigs : List (String × AnySignal)) (bn : String) (bd : BlockData),
      (∀ q ∈ conns, (alookup sigs q.1).isSome = true) →
      ∃ bd', bind_inputs_go sigs bn bd conns = .ok bd' := by
  induction conns with
  | nil => intro sigs bn bd _; exact ⟨bd, rfl⟩
  | cons c rest ih =>
    intro sigs bn bd hres
    obtain ⟨sg, inp⟩ := c
    have hsg := hres (sg, inp) (List.mem_cons_self _ _)
    obtain ⟨sig, hsig⟩ := Option.isSome_iff_exists.mp hsg
    obtain ⟨bd', hbd'⟩ := ih sigs bn
      { bd with input_signals := upsert bd.input_signals inp (some sig) }
      (fun q hq => hres q (List.mem_cons_of_mem _ hq))
    refine ⟨bd', ?_⟩
    simp only [bind_inputs_go]
    rw [hsig]
    exact hbd'

theorem bind_all_ok_of_resolve (blocks : List (String × BlockData)) :
    ∀ (sigs : List (String × AnySignal)),
      (∀ nb ∈ blocks, ∀ q ∈ nb.2.registered_inputs,
        (alookup sigs q.1).isSome = true) →
      ∃ blocks', bind_all sigs blocks = .ok blocks' := by
  induction blocks with
  | nil => intro sigs _; exact ⟨[], rfl⟩
  | cons nb rest ih =>
    intro sigs hres
    obtain ⟨n, bd⟩ := nb
    obtain ⟨bd', hbd'⟩ := bind_inputs_ok_of_resolve bd.registered_inputs sigs n bd
      (fun q hq => hres (n, bd) (List.mem_cons_self _ _) q hq)
    obtain ⟨rest', hrest'⟩ := ih sigs
      (fun p hp q hq => hres p (List.mem_cons_of_mem _ hp) q hq)
    refine ⟨(n, bd') :: rest', ?_⟩
    simp only [bind_all]
    rw [show bind_inputs sigs n bd = .ok bd' from hbd', hrest']

/-- Chain implication restricted to targets inside the chain's list. -/
theorem chain_imp_mem {R S : String → String → Prop} :
    ∀ (l : List String) (s : String), List.Chain R s l →
      (∀ a b, b ∈ l → R a b → S a b) → List.Chain S s l := by
  intro l
  induction l with
  | nil => intro s _ _; exact List.Chain.nil
  | cons b t ihl =>
    intro s hch himp
    rw [List.chain_cons] at hch
    exact List.Chain.cons (himp s b (List.mem_cons_self b t) hch.1)
      (ihl b hch.2 (fun a c hc hr => himp a c (List.mem_cons_of_mem b hc) hr))

theorem graph_edge_mem_keys (blocks : List (String × BlockData)) (cyc : Bool)
    (e : GEdge) (he : e ∈ build_graph blocks cyc) :
    e.1 ∈ blocks.map Prod.fst ∧ e.2.1 ∈ blocks.map Prod.fst := by
  rw [mem_build_graph] at he
  obtain ⟨pb, hpb, po, _, cb, hcb, _, _, hx⟩ := he
  rw [hx]
  exact ⟨List.mem_map.mpr ⟨pb, hpb, rfl⟩, List.mem_map.mpr ⟨cb, hcb, rfl⟩⟩

theorem not_is_cycle_nil (c : List String) : ¬ is_cycle ([] : List GEdge) c := by
  intro h
  cases c with
  | nil => exact h
  | cons a rest =>
    have hch : List.Chain (is_edge []) a (rest ++ [a]) := h
    cases rest with
    | nil =>
      rw [List.nil_append, List.chain_cons] at hch
      obtain ⟨l, hl⟩ := hch.1
      cases hl
    | cons b t =>
      rw [List.cons_append, List.chain_cons] at hch
      obtain ⟨l, hl⟩ := hch.1
      cases hl

/-- A cycle of the delay-filtered graph is a cycle of the full graph all
of whose blocks have delay 0. -/
theorem filt_cycle_full (blocks : List (String × BlockData))
    (hnd : (blocks.map Prod.fst).Nodup) (c : List String)
    (hc : is_cycle (build_graph blocks false) c) :
    is_cycle (build_graph blocks true) c ∧
    ∀ x ∈ c, ∃ bd, alookup blocks x = some bd ∧ bd.spec.delay = 0 := by
  constructor
  · cases c with
    | nil => exact hc
    | cons a rest =>
      have hch : List.Chain (is_edge (build_graph blocks false)) a (rest ++ [a]) := hc
      exact chain_imp_mem _ a hch (fun u v _ hr => is_edge_mono blocks u v hr)
  · intro x hx
    obtain ⟨u, _, hedge⟩ := cycle_node_has_incoming_edge _ c hc x hx
    obtain ⟨l, hl⟩ := hedge
    rw [mem_build_graph] at hl
    obtain ⟨pb, _, po, _, cb, hcb, _, hdel, hx'⟩ := hl
    have hxcb : cb.1 = x := congrArg (fun t => t.2.1) hx' |>.symm
    rw [Bool.or_false, beq_iff_eq] at hdel
    refine ⟨cb.2, ?_, hdel⟩
    rw [← hxcb]
    exact alookup_of_mem_nodup blocks cb.1 cb.2 hnd (by rw [Prod.mk.eta]; exact hcb)

/-- Conversely, a full-graph cycle whose blocks all have delay 0 survives
the delay filtering. -/
theorem full_zero_cycle_filt (blocks : List (String × BlockData))
    (hnd : (blocks.map Prod.fst).Nodup) (c : List String)
    (hc : is_cycle (build_graph blocks true) c)
    (hzero : ∀ x ∈ c, ∀ bd, alookup blocks x = some bd → bd.spec.delay = 0) :
    is_cycle (build_graph blocks false) c := by
  cases c with
  | nil => exact hc
  | cons a rest =>
    have hch : List.Chain (is_edge (build_graph blocks true)) a (rest ++ [a]) := hc
    have hmem : ∀ x ∈ rest ++ [a], x ∈ a :: rest := by
      intro x hx
      rcases List.mem_append.mp hx with h | h
      · exact List.mem_cons_of_mem a h
      · rw [List.mem_singleton.mp h]
        exact List.mem_cons_self a rest
    refine chain_imp_mem _ a hch (fun u v hv hr => ?_)
    obtain ⟨l, hl⟩ := hr
    rw [mem_build_graph] at hl
    obtain ⟨pb, hpb, po, hpo, cb, hcb, hin, _, hx'⟩ := hl
    have hxcb : cb.1 = v := congrArg (fun t => t.2.1) hx' |>.symm
    have hlk : alookup blocks cb.1 = some cb.2 :=
      alookup_of_mem_nodup blocks cb.1 cb.2 hnd (by rw [Prod.mk.eta]; exact hcb)
    have hdel : cb.2.spec.delay = 0 := by
      apply hzero v (hmem v hv) cb.2
      rw [← hxcb]
      exact hlk
    refine ⟨l, ?_⟩
    rw [mem_build_graph]
    exact ⟨pb, hpb, po, hpo, cb, hcb, hin,
      by rw [Bool.or_false, beq_iff_eq]; exact hdel, hx'⟩

/-- A strictly monotone measure along edges forbids cycles. -/
theorem chain_index_lt {R : String → String → Prop} (f : String → Nat)
    (hmono : ∀ u v, R u v → f u < f v) :
    ∀ (l : List String) (s : String), List.Chain R s l → ∀ x ∈ l, f s < f x := by
  intro l
  induction l with
  | nil =>
    intro s _ x hx
    cases hx
  | cons b t ihl =>
    intro s hch x hx
    rw [List.chain_cons] at hch
    rcases List.mem_cons.mp hx with rfl | hxt
    · exact hmono s x hch.1
    · exact Nat.lt_trans (hmono s b hch.1) (ihl b hch.2 x hxt)

/-- build past a successful binding pass and successful sort. -/
theorem build_reduce_ok (b : ControlSystemBuilder) (name : String)
    (params : ControlSystemParameters) (blocks' : List (String × BlockData))
    (sorted : List String)
    (hba : bind_all b.signals b.blocks = .ok blocks')
    (hts : toposort (build_graph blocks' false) (blocks'.map (·.1)) = .ok sorted) :
    ControlSystemBuilder.build b name params =
      .ok { name := name
            signals := b.signals
            blocks := sorted.filterMap
              (fun n => (alookup blocks' n).map (fun bd => ⟨bd, 0⟩))
            params := params
            step_info := StepInfo.new params.dt } := by
  simp only [ControlSystemBuilder.build]
  simp only [hba, hts]

/-- build past a successful binding pass with a failing sort. -/
theorem build_reduce_err (b : ControlSystemBuilder) (name : String)
    (params : ControlSystemParameters) (blocks' : List (String × BlockData))
    (w : String)
    (hba : bind_all b.signals b.blocks = .ok blocks')
    (hts : toposort (build_graph blocks' false) (blocks'.map (·.1)) = .error w) :
    ControlSystemBuilder.build b name params = .error (.CycleDetected w) := by
  simp only [ControlSystemBuilder.build]
  simp only [hba, hts]

/-- C4 counterexample: in builderGhost one block reads signal "ghost"
that nobody produces. The dependency graph has no cycles at all, so the
claimed equivalence demands that build succeed, yet build fails (with
UnknownSignal). -/
theorem c4_counterexample_unknown_signal :
    (∀ cs, ControlSystemBuilder.build builderGhost "g" defaultParams ≠ .ok cs) ∧
    (∀ c, is_cycle (build_graph builderGhost.blocks true) c →
      ∃ x ∈ c, ∃ bd, alookup builderGhost.blocks x = some bd ∧
        0 < bd.spec.delay) := by
  constructor
  · intro cs h
    rw [show ControlSystemBuilder.build builderGhost "g" defaultParams =
      .error (.UnknownSignal "u" "ghost" "B") from rfl] at h
    cases h
  · intro c hc
    rw [show build_graph builderGhost.blocks true = [] from rfl] at hc
    exact absurd hc (not_is_cycle_nil c)

/-- C4 (amended): provided every recorded input wiring resolves to a
produced signal (no UnknownSignal) and block names are unique, build
succeeds iff every cycle of the signal dependency graph contains a block
with delay > 0, and a CycleDetected failure names a block lying on a
cycle of that graph. -/
theorem c4_cycle_detection (b : ControlSystemBuilder) (name : String)
    (params : ControlSystemParameters)
    (hres : inputs_resolve b = true)
    (hnd : (b.blocks.map Prod.fst).Nodup) :
    ((∃ cs, ControlSystemBuilder.build b name params = .ok cs) ↔
      ∀ c, is_cycle (build_graph b.blocks true) c →
        ∃ x ∈ c, ∃ bd, alookup b.blocks x = some bd ∧ 0 < bd.spec.delay) ∧
    (∀ w, ControlSystemBuilder.build b name params = .error (.CycleDetected w) →
      ∃ c, is_cycle (build_graph b.blocks true) c ∧ w ∈ c) := by
  have hres' : ∀ nb ∈ b.blocks, ∀ q ∈ nb.2.registered_inputs,
      (alookup b.signals q.1).isSome = true := by
    rw [inputs_resolve, List.all_eq_true] at hres
    intro nb hnb q hq
    have h2 : nb.2.registered_inputs.all
        (fun q => (alookup b.signals q.1).isSome) = true := hres nb hnb
    rw [List.all_eq_true] at h2
    exact h2 q hq
  obtain ⟨blocks', hba⟩ := bind_all_ok_of_resolve b.blocks b.signals hres'
  have hshape := bind_all_shape b.blocks b.signals blocks' hba
  have hkeys' : blocks'.map (·.1) = b.blocks.map Prod.fst :=
    bind_all_keys b.blocks blocks' hshape
  have hgraphF := build_graph_congr b.blocks blocks' hshape false
  have htsE : toposort (build_graph blocks' false) (blocks'.map (·.1)) =
      toposort (build_graph b.blocks false) (b.blocks.map Prod.fst) := by
    rw [hgraphF, hkeys']
  -- the sort succeeds iff every full cycle carries a delay
  have hsort_iff : (∃ sorted, toposort (build_graph b.blocks false)
        (b.blocks.map Prod.fst) = .ok sorted) ↔
      ∀ c, is_cycle (build_graph b.blocks true) c →
        ∃ x ∈ c, ∃ bd, alookup b.blocks x = some bd ∧ 0 < bd.spec.delay := by
    constructor
    · rintro ⟨sorted, hts⟩ c hcfull
      obtain ⟨_, horder⟩ := topo_go_sound (build_graph b.blocks false)
        (b.blocks.map Prod.fst).length (b.blocks.map Prod.fst) sorted
        (Nat.le_refl _) hts
      by_contra hnone
      push_neg at hnone
      have hzero : ∀ x ∈ c, ∀ bd, alookup b.blocks x = some bd →
          bd.spec.delay = 0 := by
        intro x hx bd hbd
        have := hnone x hx bd hbd
        omega
      have hcfilt := full_zero_cycle_filt b.blocks hnd c hcfull hzero
      have hmono : ∀ u v, is_edge (build_graph b.blocks false) u v →
          sorted.indexOf u < sorted.indexOf v := by
        intro u v ⟨l, hl⟩
        obtain ⟨h1, h2⟩ := graph_edge_mem_keys b.blocks false (u, v, l) hl
        exact horder (u, v, l) hl h1 h2
      cases c with
      | nil => exact hcfilt
      | cons a rest =>
        have hch : List.Chain (is_edge (build_graph b.blocks false)) a
            (rest ++ [a]) := hcfilt
        have := chain_index_lt (fun x => sorted.indexOf x) hmono _ a hch a
          (List.mem_append.mpr (Or.inr (List.mem_singleton.mpr rfl)))
        omega
    · intro hall
      cases hts : toposort (build_graph b.blocks false) (b.blocks.map Prod.fst) with
      | ok sorted => exact ⟨sorted, rfl⟩
      | error w =>
        exfalso
        obtain ⟨c, hcfilt, _, _⟩ := topo_go_error (build_graph b.blocks false)
          (b.blocks.map Prod.fst).length (b.blocks.map Prod.fst) w
          (Nat.le_refl _) hts
        obtain ⟨hcfull, hzero⟩ := filt_cycle_full b.blocks hnd c hcfilt
        obtain ⟨x, hx, bd, hlk, hpos⟩ := hall c hcfull
        obtain ⟨bd₀, hlk₀, hz⟩ := hzero x hx
        rw [hlk] at hlk₀
        cases hlk₀
        omega
  constructor
  · rw [← hsort_iff]
    constructor
    · rintro ⟨cs, hcs⟩
      cases hts : toposort (build_graph blocks' false) (blocks'.map (·.1)) with
      | ok sorted =>
        refine ⟨sorted, ?_⟩
        rw [← htsE]
        exact hts
      | error w =>
        rw [build_reduce_err b name params blocks' w hba hts] at hcs
        cases hcs
    · rintro ⟨sorted, hts⟩
      refine ⟨_, build_reduce_ok b name params blocks' sorted hba ?_⟩
      rw [htsE]
      exact hts
  · intro w hw
    cases hts : toposort (build_graph blocks' false) (blocks'.map (·.1)) with
    | ok sorted =>
      rw [build_reduce_ok b name params blocks' sorted hba hts] at hw
      cases hw
    | error w' =>
      rw [build_reduce_err b name params blocks' w' hba hts] at hw
      have hww : w' = w := by
        cases hw
        rfl
      subst hww
      rw [htsE] at hts
      obtain ⟨c, hcfilt, hwc, _⟩ := topo_go_error (build_graph b.blocks false)
        (b.blocks.map Prod.fst).length (b.blocks.map Prod.fst) w'
        (Nat.le_refl _) hts
      exact ⟨c, (filt_cycle_full b.blocks hnd c hcfilt).1, hwc⟩

/-- Witness for C4 at builderDelayLoop (a two-block feedback loop broken
by one block's delay): the hypotheses hold and in particular the
equivalence is available at this builder. -/
theorem c4_witness :
    (inputs_resolve builderDelayLoop = true ∧
      (builderDelayLoop.blocks.map Prod.fst).Nodup) ∧
    (((∃ cs, ControlSystemBuilder.build builderDelayLoop "loop" defaultParams =
        .ok cs) ↔
      ∀ c, is_cycle (build_graph builderDelayLoop.blocks true) c →
        ∃ x ∈ c, ∃ bd, alookup builderDelayLoop.blocks x = some bd ∧
          0 < bd.spec.delay) ∧
    (∀ w, ControlSystemBuilder.build builderDelayLoop "loop" defaultParams =
        .error (.CycleDetected w) →
      ∃ c, is_cycle (build_graph builderDelayLoop.blocks true) c ∧ w ∈ c)) := by
  have h1 : inputs_resolve builderDelayLoop = true := rfl
  have h2 : (builderDelayLoop.blocks.map Prod.fst).Nodup := by
    rw [show builderDelayLoop.blocks.map Prod.fst = ["C", "D"] from rfl]
    decide
  exact ⟨⟨h1, h2⟩, c4_cycle_detection builderDelayLoop "loop" defaultParams h1 h2⟩

/-! Lemmas for the execution-order claim. -/

/-- A successful association lookup comes from a member of the list. -/
theorem alookup_mem {α : Type} (m : List (String × α)) (k : String) (v : α)
    (h : alookup m k = some v) : (k, v) ∈ m := by
  induction m with
  | nil => rw [alookup_nil] at h; cases h
  | cons p t ih =>
    rw [alookup_cons] at h
    by_cases hp : p.1 = k
    · rw [if_pos hp] at h
      injection h with h2
      have hpv : p = (k, v) := Prod.ext hp h2
      rw [← hpv]
      exact List.mem_cons_self _ _
    · rw [if_neg hp] at h
      exact List.mem_cons_of_mem _ (ih h)

/-- Names read back from build's block-list construction: when every
sorted node resolves to a block datum carrying that very name, the
runtime's block names are the sorted list itself. -/
theorem filterMap_lookup_names (m : List (String × BlockData)) :
    ∀ (l : List String),
      (∀ n ∈ l, ∃ bd, alookup m n = some bd ∧ bd.spec.name = n) →
      (l.filterMap (fun n => (alookup m n).map (fun bd => (⟨bd, 0⟩ : RBlock)))).map
        (fun rb => rb.data.spec.name) = l := by
  intro l
  induction l with
  | nil => intro _; rfl
  | cons n t ih =>
    intro h
    obtain ⟨bd, hbd, hname⟩ := h n (List.mem_cons_self _ _)
    simp only [List.filterMap_cons, hbd, Option.map_some', List.map_cons,
      ih (fun x hx => h x (List.mem_cons_of_mem _ hx))]
    rw [hname]

/-- The step loop never changes the block names (a skipped block, an
erroring block and a stepped block all keep their data's spec). -/
theorem step_blocks_names (info : StepInfo) :
    ∀ (blocks : List RBlock) (s : Bool),
      ((step_blocks info blocks s).1).map (fun rb => rb.data.spec.name) =
        blocks.map (fun rb => rb.data.spec.name) := by
  intro blocks
  induction blocks with
  | nil => intro s; rfl
  | cons b rest ih =>
    intro s
    cases s with
    | true => rw [step_blocks_skip]
    | false =>
      cases hb : b.data.spec.behavior info with
      | error e => simp [step_blocks, hb]
      | ok r =>
        cases hsb : step_blocks info rest (r == StepResult.Stop) with
        | mk rest' res =>
          have ihr := ih (r == StepResult.Stop)
          rw [hsb] at ihr
          have ihr' : rest'.map (fun rb => rb.data.spec.name) =
              rest.map (fun rb => rb.data.spec.name) := ihr
          simp [step_blocks, hb, hsb, ihr']

/-- The block list of the runtime after a step call is the block list
produced by the loop, whatever the call's result. -/
theorem step_fst_blocks (cs : ControlSystem) :
    (cs.step.1).blocks = (step_blocks cs.step_info cs.blocks false).1 := by
  cases hsb : step_blocks cs.step_info cs.blocks false with
  | mk blocks' r =>
    cases r with
    | error e => simp only [ControlSystem.step, hsb]
    | ok stop => simp only [ControlSystem.step, hsb]

/-- One step call preserves the execution order. -/
theorem exec_order_step (cs : ControlSystem) :
    exec_order cs.step.1 = exec_order cs := by
  show (cs.step.1).blocks.map (fun rb => rb.data.spec.name) =
    cs.blocks.map (fun rb => rb.data.spec.name)
  rw [step_fst_blocks]
  exact step_blocks_names cs.step_info cs.blocks false

/-- Any number of step calls preserves the execution order. -/
theorem exec_order_stepN (cs : ControlSystem) (n : Nat) :
    exec_order (stepN cs n) = exec_order cs := by
  induction n with
  | zero => rfl
  | succ n ih =>
    show exec_order ((stepN cs n).step.1) = exec_order cs
    rw [exec_order_step, ih]

/-- C5: in every successfully built runtime, whenever block P registered
an output to some signal, block C registered an input from that signal,
and C declares delay 0, P precedes C in the execution order; and the
execution order is preserved by every later step call (the runtime's
only operation). Hypothesis: each registered block datum carries its key
as its name (add_block keys the map by the block's name). -/
theorem c5_topological_soundness (b : ControlSystemBuilder) (name : String)
    (params : ControlSystemParameters) (cs : ControlSystem)
    (P C signal port : String) (pbd cbd : BlockData)
    (hnames : ∀ nb ∈ b.blocks, nb.2.spec.name = nb.1)
    (hbuild : ControlSystemBuilder.build b name params = .ok cs)
    (hP : (P, pbd) ∈ b.blocks)
    (hout : (port, signal) ∈ pbd.registered_outputs)
    (hC : (C, cbd) ∈ b.blocks)
    (hin : (alookup cbd.registered_inputs signal).isSome = true)
    (hdelay : cbd.spec.delay = 0) :
    (exec_order cs).indexOf P < (exec_order cs).indexOf C ∧
    ∀ n, exec_order (stepN cs n) = exec_order cs := by
  cases hba : bind_all b.signals b.blocks with
  | error e =>
    exfalso
    have hb' : ControlSystemBuilder.build b name params = .error e := by
      simp only [ControlSystemBuilder.build, hba]
    rw [hb'] at hbuild
    cases hbuild
  | ok blocks' =>
    cases hts : toposort (build_graph blocks' false) (blocks'.map (·.1)) with
    | error w =>
      exfalso
      rw [build_reduce_err b name params blocks' w hba hts] at hbuild
      cases hbuild
    | ok sorted =>
      rw [build_reduce_ok b name params blocks' sorted hba hts] at hbuild
      injection hbuild with hcs
      have hshape := bind_all_shape b.blocks b.signals blocks' hba
      have hkeys : blocks'.map Prod.fst = b.blocks.map Prod.fst :=
        bind_all_keys b.blocks blocks' hshape
      have hgraph : build_graph blocks' false = build_graph b.blocks false :=
        build_graph_congr b.blocks blocks' hshape false
      have hts' : toposort_go (build_graph blocks' false)
          (blocks'.map (·.1)).length (blocks'.map (·.1)) = .ok sorted := hts
      obtain ⟨hperm, horder⟩ := topo_go_sound (build_graph blocks' false)
        (blocks'.map (·.1)).length (blocks'.map (·.1)) sorted (Nat.le_refl _) hts'
      have hedge : (P, C, signal) ∈ build_graph b.blocks false := by
        rw [mem_build_graph]
        refine ⟨(P, pbd), hP, (port, signal), hout, (C, cbd), hC, hin, ?_, rfl⟩
        rw [Bool.or_eq_true]
        exact Or.inl (beq_iff_eq.mpr hdelay)
      have hPmem : P ∈ blocks'.map (·.1) := by
        have h0 : P ∈ b.blocks.map Prod.fst := List.mem_map.mpr ⟨(P, pbd), hP, rfl⟩
        have hk : blocks'.map (·.1) = b.blocks.map Prod.fst := hkeys
        rw [hk]
        exact h0
      have hCmem : C ∈ blocks'.map (·.1) := by
        have h0 : C ∈ b.blocks.map Prod.fst := List.mem_map.mpr ⟨(C, cbd), hC, rfl⟩
        have hk : blocks'.map (·.1) = b.blocks.map Prod.fst := hkeys
        rw [hk]
        exact h0
      have hlt : sorted.indexOf P < sorted.indexOf C :=
        horder (P, C, signal) (by rw [hgraph]; exact hedge) hPmem hCmem
      have hreso : ∀ n ∈ sorted, ∃ bd, alookup blocks' n = some bd ∧
          bd.spec.name = n := by
        intro n hn
        have hnS : n ∈ blocks'.map Prod.fst := hperm.mem_iff.mp hn
        cases halo : alookup blocks' n with
        | none => exact absurd hnS ((alookup_eq_none_iff_keys blocks' n).mp halo)
        | some bd =>
          refine ⟨bd, rfl, ?_⟩
          obtain ⟨p, hp, hR⟩ := forall₂_mem_right _ _ _ hshape (n, bd)
            (alookup_mem blocks' n bd halo)
          have h1 : p.1 = n := hR.1
          have h2 : bd.spec = p.2.spec := hR.2.1
          have h3 : p.2.spec.name = p.1 := hnames p hp
          rw [h2, h3]
          exact h1
      have hcsb : cs.blocks = sorted.filterMap
          (fun n => (alookup blocks' n).map (fun bd => (⟨bd, 0⟩ : RBlock))) := by
        rw [← hcs]
      have hEO : exec_order cs = sorted := by
        show cs.blocks.map (fun rb => rb.data.spec.name) = sorted
        rw [hcsb]
        exact filterMap_lookup_names blocks' sorted hreso
      refine ⟨?_, fun n => exec_order_stepN cs n⟩
      rw [hEO]
      exact hlt

/-- Witness for C5 at the delay-broken feedback pair: D produces sD,
zero-delay C consumes it, and in the built runtime D indeed precedes C,
stably under stepping. -/
theorem c5_witness :
    ((∀ nb ∈ builderDelayLoop.blocks, nb.2.spec.name = nb.1) ∧
      ControlSystemBuilder.build builderDelayLoop "loop" defaultParams =
        .ok csDelayLoop ∧
      ("D", bdLoopD) ∈ builderDelayLoop.blocks ∧
      ("y", "sD") ∈ bdLoopD.registered_outputs ∧
      ("C", bdLoopC) ∈ builderDelayLoop.blocks ∧
      (alookup bdLoopC.registered_inputs "sD").isSome = true ∧
      bdLoopC.spec.delay = 0) ∧
    ((exec_order csDelayLoop).indexOf "D" < (exec_order csDelayLoop).indexOf "C" ∧
      ∀ n, exec_order (stepN csDelayLoop n) = exec_order csDelayLoop) := by
  have hbl : builderDelayLoop.blocks = [("C", bdLoopC), ("D", bdLoopD)] := rfl
  have hnames : ∀ nb ∈ builderDelayLoop.blocks, nb.2.spec.name = nb.1 := by
    intro nb hnb
    rw [hbl] at hnb
    rcases List.mem_cons.mp hnb with h | h
    · rw [h]
      rfl
    · rcases List.mem_cons.mp h with h2 | h2
      · rw [h2]
        rfl
      · cases h2
  have hbuild : ControlSystemBuilder.build builderDelayLoop "loop" defaultParams =
      .ok csDelayLoop := rfl
  have hP : ("D", bdLoopD) ∈ builderDelayLoop.blocks := by
    rw [hbl]
    exact List.mem_cons_of_mem _ (List.mem_cons_self _ _)
  have hout : ("y", "sD") ∈ bdLoopD.registered_outputs := by
    rw [show bdLoopD.registered_outputs = [("y", "sD")] from rfl]
    exact List.mem_singleton.mpr rfl
  have hC : ("C", bdLoopC) ∈ builderDelayLoop.blocks := by
    rw [hbl]
    exact List.mem_cons_self _ _
  have hin : (alookup bdLoopC.registered_inputs "sD").isSome = true := rfl
  have hdelay : bdLoopC.spec.delay = 0 := rfl
  exact ⟨⟨hnames, hbuild, hP, hout, hC, hin, hdelay⟩,
    c5_topological_soundness builderDelayLoop "loop" defaultParams csDelayLoop
      "D" "C" "sD" "y" bdLoopD bdLoopC hnames hbuild hP hout hC hin hdelay⟩

end ControlSystemRs
